import Mathlib

/-!
Verification of the entry-extraction engine of `scripts/extract_entries_pymupdf.py`.

The Python source is shallowly embedded: strings become `List Char`, floats
become exact rationals (the script performs only field arithmetic and comparisons on them),
mutable dataclasses become immutable structures with functional update, and the
per-column classification loop becomes a fold over the column's lines.
Regular-expression matching is embedded by hand as executable character-level
matchers reproducing Python `re` semantics (leftmost match, greedy quantifiers
with backtracking, `\b` word boundaries, `IGNORECASE`) on the inputs the script
feeds them.
-/

namespace Qaamuus

abbrev Str := List Char

/-- Python `\s` (ASCII whitespace; the only whitespace the inputs carry). -/
def isWs (c : Char) : Bool :=
  c = ' ' || c = '\t' || c = '\n' || c = '\x0b' || c = '\x0c' || c = '\r'

/-- `APOSTROPHE_MAP`: the four apostrophe variants are sent to `'`.
Each `str.replace` in `normalize_text` is a single-character substitution,
so the whole loop is a character map. -/
def mapApos (c : Char) : Char :=
  if c = '’' || c = '′' || c = 'ʼ' || c = 'ʻ' then '\'' else c

/-- `re.sub(r"\s+", " ", s)`: collapse every whitespace run to a single space.
The boolean records whether the previous character was whitespace. -/
def collapseWs : Bool → Str → Str
  | _, [] => []
  | inRun, c :: cs =>
    if isWs c then
      if inRun then collapseWs true cs else ' ' :: collapseWs true cs
    else c :: collapseWs false cs

/-- Python `str.lstrip()`. -/
def pyLstrip (s : Str) : Str := s.dropWhile (fun c => isWs c)

/-- Python `str.rstrip()`. -/
def pyRstrip (s : Str) : Str := (s.reverse.dropWhile (fun c => isWs c)).reverse

/-- Python `str.strip()`. -/
def pyStrip (s : Str) : Str := pyRstrip (pyLstrip s)

/-- `normalize_text`. -/
def normalize (s : Str) : Str :=
  if s = [] then s else pyStrip (collapseWs false (s.map mapApos))

/-! ### Executable rationals

The script computes with floats; every operation it performs (field
arithmetic and comparisons) is exact on rationals, which we embed as `Q`: a
gcd-normalized fraction whose denominator `den1 + 1` is positive by
construction. (Mathlib's `ℚ` is not used directly in the executable part
because its arithmetic does not reduce inside the kernel; `Q.toRat` transfers
facts to `ℚ` for the abstract proofs.) -/

structure Q where
  num : Int
  den1 : Nat
deriving DecidableEq, Repr

namespace Q

/-- Normalized fraction `n / d` (callers guarantee `1 ≤ d`). -/
def mkNorm (n : Int) (d : Nat) : Q :=
  if n = 0 then ⟨0, 0⟩
  else
    let g : Nat := n.natAbs.gcd d
    ⟨n / (g : Int), d / g - 1⟩

def ofInt (i : Int) : Q := ⟨i, 0⟩

def den (a : Q) : Nat := a.den1 + 1

protected def add (a b : Q) : Q :=
  mkNorm (a.num * (b.den : Int) + b.num * (a.den : Int)) (a.den * b.den)

protected def sub (a b : Q) : Q :=
  mkNorm (a.num * (b.den : Int) - b.num * (a.den : Int)) (a.den * b.den)

protected def neg (a : Q) : Q := ⟨-a.num, a.den1⟩

protected def mul (a b : Q) : Q := mkNorm (a.num * b.num) (a.den * b.den)

protected def div (a b : Q) : Q :=
  if b.num = 0 then ⟨0, 0⟩
  else mkNorm ((if 0 ≤ b.num then a.num else -a.num) * (b.den : Int))
    (a.den * b.num.natAbs)

protected def le (a b : Q) : Prop := a.num * (b.den : Int) ≤ b.num * (a.den : Int)

protected def lt (a b : Q) : Prop := a.num * (b.den : Int) < b.num * (a.den : Int)

instance : Add Q := ⟨Q.add⟩
instance : Sub Q := ⟨Q.sub⟩
instance : Neg Q := ⟨Q.neg⟩
instance : Mul Q := ⟨Q.mul⟩
instance : Div Q := ⟨Q.div⟩
instance : LE Q := ⟨Q.le⟩
instance : LT Q := ⟨Q.lt⟩
instance (n : Nat) : OfNat Q n := ⟨⟨n, 0⟩⟩

instance (a b : Q) : Decidable (a ≤ b) := Int.decLe _ _
instance (a b : Q) : Decidable (a < b) := Int.decLt _ _

instance : Min Q := ⟨fun a b => if a ≤ b then a else b⟩
instance : Max Q := ⟨fun a b => if a ≤ b then b else a⟩

/-- `abs`: the denominator is positive, so the sign is the numerator's. -/
def qAbs (a : Q) : Q := if a.num < 0 then ⟨-a.num, a.den1⟩ else a

instance : NatCast Q := ⟨fun n => ⟨n, 0⟩⟩
instance : IntCast Q := ⟨fun i => ⟨i, 0⟩⟩

/-- The value of `a` as a Mathlib rational. -/
def toRat (a : Q) : ℚ := (a.num : ℚ) / ((a.den : ℚ))

end Q

/-- Python `round()` (half to even). -/
def pyRound (q : Q) : Int :=
  let f := q.num.fdiv (q.den : Int)
  let r := q - Q.ofInt f
  if r < 1 / 2 then f
  else if 1 / 2 < r then f + 1
  else if f % 2 = 0 then f else f + 1

/-! ### Character classes -/

def isAsciiLetter (c : Char) : Bool :=
  ('a' ≤ c && c ≤ 'z') || ('A' ≤ c && c ≤ 'Z')

def isDigitCh (c : Char) : Bool := '0' ≤ c && c ≤ '9'

/-- The headword character class `[A-Za-z’′ʼʻ'¹²³()\-]`
shared by `HEADLINE_PATTERN`, `WORD_PATTERN` and `WORD_INLINE_CANDIDATE`. -/
def wordClassCh (c : Char) : Bool :=
  isAsciiLetter c || c = '’' || c = '′' || c = 'ʼ' || c = 'ʻ' || c = '\'' ||
    c = '¹' || c = '²' || c = '³' || c = '(' || c = ')' || c = '-'

/-- The class `[A-Za-z’′ʼʻ'¹²³\-]` of the single-token
cross-reference patterns (no parentheses). -/
def refClassCh (c : Char) : Bool :=
  isAsciiLetter c || c = '’' || c = '′' || c = 'ʼ' || c = 'ʻ' || c = '\'' ||
    c = '¹' || c = '²' || c = '³' || c = '-'

/-- Python's `\w` on the characters these inputs can carry: ASCII alphanumerics,
underscore, and the superscript ordinals `¹²³` (numeric, hence word characters
in Python). The apostrophe variants are word characters for Python only in
their U+02BC/U+02BB forms, which `normalize_text` rewrites to `'` before any
pattern is applied, so they never reach a matcher. -/
def isWordCh (c : Char) : Bool :=
  isAsciiLetter c || isDigitCh c || c = '_' || c = '¹' || c = '²' || c = '³'

/-! ### Runs, boundaries and shared helpers -/

/-- Length of the maximal prefix of `s` whose characters satisfy `p`. -/
def runLen (p : Char → Bool) (s : Str) : Nat := (s.takeWhile p).length

/-- Whether the character at index `i` is a `\w` character (`false` out of range). -/
def wordAt (s : Str) (i : Nat) : Bool :=
  match s[i]? with
  | some c => isWordCh c
  | none => false

/-- Python `\b` at position `p` of `s` (between `s[p-1]` and `s[p]`,
with the string boundary counting as non-word). -/
def bAt (s : Str) (p : Nat) : Bool :=
  (if p = 0 then false else wordAt s (p - 1)) != wordAt s p

/-- `\b` at the end of a match whose final character is a word character:
holds at end of string or before a non-word character. -/
def bAfterWord (s : Str) (p : Nat) : Bool :=
  match s[p]? with
  | some c => !(isWordCh c)
  | none => true

/-- Case-insensitive literal prefix test (`re.IGNORECASE`); `pat` is lowercase. -/
def ciStarts (s : Str) (pat : Str) : Bool :=
  (s.take pat.length).map Char.toLower = pat

/-! ### `HEADLINE_PATTERN` -/

/-- `HEADLINE_PATTERN.match(s)`:
`^(?P<word>[A-Za-z’′ʼʻ'¹²³()\-]+)\s+(?P<rest>.+)$`.
The word group is the maximal class run (the class has no whitespace, so
backtracking it shorter can never make `\s+` match); then at least one
whitespace character; `rest` is the remainder, with the greedy `\s+` giving
back one space when the remainder would otherwise be empty. All call sites
feed whitespace-normalized text, where the give-back case cannot occur. -/
def headlineMatch (s : Str) : Option (Str × Str) :=
  let r := runLen wordClassCh s
  if r = 0 then none
  else
    let sp := runLen isWs (s.drop r)
    if sp = 0 then none
    else if r + sp < s.length then some (s.take r, s.drop (r + sp))
    else if 2 ≤ sp then some (s.take r, [' '])
    else none

/-! ### `POS_PATTERN`

`^(?:(?:[a-z]{1,3}\.[a-z]{1,3}(?:\.[a-z]{1,3})?)|u\.j|e\.d|qr\.dd|m\.l/dh|`
`(?:[mfgleu]\.[a-z]{1,3}(?:\d)?)|[mfgleu]\.)\b` with `IGNORECASE`.
Each alternative is tried in order; the greedy letter groups can only end at
the end of their maximal run (ending earlier leaves a letter next, failing
both the following literal and the final `\b`), which the matchers below
exploit. The result is the length of `match.group(0)`. -/

def letRun (s : Str) : Nat := runLen isAsciiLetter s

/-- First alternative `[a-z]{1,3}\.[a-z]{1,3}(?:\.[a-z]{1,3})?` + `\b`. -/
def posAlt1 (s : Str) : Option Nat :=
  let m1 := letRun s
  if 1 ≤ m1 && m1 ≤ 3 && s[m1]? = some '.' then
    let t := s.drop (m1 + 1)
    let m2 := letRun t
    if 1 ≤ m2 && m2 ≤ 3 then
      if t[m2]? = some '.' then
        -- the optional `\.[a-z]{1,3}` is preferred; if it cannot complete,
        -- the `\b` after the second group holds anyway (next char is `.`)
        let u := t.drop (m2 + 1)
        let m3 := letRun u
        if 1 ≤ m3 && m3 ≤ 3 && bAfterWord u m3 then some (m1 + 1 + m2 + 1 + m3)
        else some (m1 + 1 + m2)
      else if bAfterWord t m2 then some (m1 + 1 + m2)
      else none
    else none
  else none

/-- Second alternative: the literal specials `u\.j|e\.d|qr\.dd|m\.l/dh` + `\b`. -/
def posAlt2 (s : Str) : Option Nat :=
  if ciStarts s ['u', '.', 'j'] && bAt s 3 then some 3
  else if ciStarts s ['e', '.', 'd'] && bAt s 3 then some 3
  else if ciStarts s ['q', 'r', '.', 'd', 'd'] && bAt s 5 then some 5
  else if ciStarts s ['m', '.', 'l', '/', 'd', 'h'] && bAt s 6 then some 6
  else none

def posLeadCh (c : Char) : Bool :=
  let l := c.toLower
  l = 'm' || l = 'f' || l = 'g' || l = 'l' || l = 'e' || l = 'u'

/-- Third alternative `[mfgleu]\.[a-z]{1,3}(?:\d)?` + `\b`. -/
def posAlt3 (s : Str) : Option Nat :=
  match s[0]?, s[1]? with
  | some c0, some c1 =>
    if posLeadCh c0 && c1 = '.' then
      let t := s.drop 2
      let m2 := letRun t
      if 1 ≤ m2 && m2 ≤ 3 then
        match t[m2]? with
        | some d =>
          if isDigitCh d then
            if bAfterWord t (m2 + 1) then some (2 + m2 + 1) else none
          else if bAfterWord t m2 then some (2 + m2)
          else none
        | none => some (2 + m2)
      else none
    else none
  | _, _ => none

/-- Fourth alternative `[mfgleu]\.` + `\b`: the boundary after the dot needs a
word character right after it (so a plain `"m. "` does NOT match). -/
def posAlt4 (s : Str) : Option Nat :=
  match s[0]?, s[1]?, s[2]? with
  | some c0, some c1, some c2 =>
    if posLeadCh c0 && c1 = '.' && isWordCh c2 then some 2 else none
  | _, _, _ => none

/-- `POS_PATTERN.match(s)`: length of `group(0)`, or `none`. -/
def posMatch (s : Str) : Option Nat :=
  posAlt1 s <|> posAlt2 s <|> posAlt3 s <|> posAlt4 s

/-! ### `WORD_PATTERN` and small matchers -/

/-- `WORD_PATTERN.match(s)` as a boolean:
`^[A-Za-z’′ʼʻ'¹²³()\-]+\d?\b`. The group may backtrack to
any nonempty prefix of the maximal class run; the optional digit can only
be taken at the end of the full run (the class has no digits). -/
def wpMatch (s : Str) : Bool :=
  let r := runLen wordClassCh s
  if r = 0 then false
  else
    ((List.range r).any fun i => bAt s (i + 1)) ||
      (match s[r]? with
       | some c => isDigitCh c && bAt s (r + 1)
       | none => false)

/-- `re.match(r"^\d+\.", s)` as a boolean. -/
def startsNumberedSense (s : Str) : Bool :=
  let d := runLen isDigitCh s
  1 ≤ d && s[d]? = some '.'

/-- The alias-parenthesis stripping loop
`while tmp.startswith('(') and ')' in tmp: tmp = tmp[tmp.find(')')+1:].lstrip()`,
run with a fuel of `|s|` (each iteration shortens the string). -/
def pswGo : Nat → Str → Str
  | 0, s => s
  | fuel + 1, s =>
    if s.head? = some '(' then
      match s.findIdx? (fun c => c = ')') with
      | some close => pswGo fuel (pyLstrip (s.drop (close + 1)))
      | none => s
    else s

def parenStripWhile (s : Str) : Str := pswGo s.length s

/-- The single parenthetical strip
`if t.startswith('('): close = t.find(')'); if close != -1: t = t[close+1:].lstrip()`. -/
def parenStripOnce (s : Str) : Str :=
  if s.head? = some '(' then
    match s.findIdx? (fun c => c = ')') with
    | some close => pyLstrip (s.drop (close + 1))
    | none => s
  else s

/-! ### `find_inline_headword_break` -/

/-- A `WORD_INLINE_CANDIDATE` (`\b([A-Za-z’′ʼʻ'¹²³()\-]{1,40})\s+`) match
starting at index `p`: returns (group length, match end). The class contains
no whitespace, so the greedy group cannot backtrack into a successful `\s+`;
a run longer than 40 characters therefore yields no match at `p`. -/
def wicAt (s : Str) (p : Nat) : Option (Nat × Nat) :=
  if bAt s p then
    let t := s.drop p
    let r := runLen wordClassCh t
    if 1 ≤ r && r ≤ 40 then
      let sp := runLen isWs (t.drop r)
      if 1 ≤ sp then some (r, p + r + sp) else none
    else none
  else none

/-- The `finditer` loop of `find_inline_headword_break`: at each candidate,
short single-letter headwords other than `a` are skipped; otherwise the text
after the candidate, with one leading parenthetical stripped, must start with
a POS token. Scanning resumes at the end of the previous candidate. -/
def fibGo (s : Str) : Nat → Nat → Option (Nat × Str × Str)
  | 0, _ => none
  | fuel + 1, p =>
    if s.length ≤ p then none
    else
      match wicAt s p with
      | some (r, e) =>
        let hw := normalize ((s.drop p).take r)
        if hw.length = 1 && hw ≠ ['a'] then fibGo s fuel e
        else
          let tmp := parenStripOnce (pyLstrip (s.drop e))
          match posMatch tmp with
          | some pe => some (p, hw, pyLstrip (tmp.drop pe))
          | none => fibGo s fuel e
      | none => fibGo s fuel (p + 1)

/-- `find_inline_headword_break(text)`; `none` plays the role of `(-1, '', '')`. -/
def findInlineBreak (s : Str) : Option (Nat × Str × Str) :=
  if s = [] then none else fibGo s (s.length + 1) 0

/-! ### Cross-reference cue patterns -/

/-- The group terminator class `[)\.;:]` of the cue-phrase patterns. -/
def isTermCh (c : Char) : Bool := c = ')' || c = '.' || c = ';' || c = ':'

/-- `\s+([^)\.;:]+)` starting at index `q`: at least one whitespace character,
then a nonempty greedy run of non-terminators. Whitespace is itself a
non-terminator, so when the character after the whitespace run is a
terminator the greedy `\s+` gives back one space, which becomes the content.
Returns (content start, content length). -/
def contentAfterWs (s : Str) (q : Nat) : Option (Nat × Nat) :=
  let sp := runLen isWs (s.drop q)
  if sp = 0 then none
  else
    let g := runLen (fun c => !(isTermCh c)) (s.drop (q + sp))
    if 1 ≤ g then some (q + sp, g)
    else if 2 ≤ sp then some (q + sp - 1, 1)
    else none

/-- A `CROSS_REF_PHRASE` match attempt at index `p`:
`\(?(?:\b(?:eeg|→)\s+)([^)\.;:]+)[)\.;:]*` (IGNORECASE).
Returns (group 1, match end). The `\b` before `→` (a non-word character)
requires a word character immediately before it. -/
def crpMatchAt (s : Str) (p : Nat) : Option (Str × Nat) :=
  let q := if s[p]? = some '(' then p + 1 else p
  let eeg :=
    if ciStarts (s.drop q) ['e', 'e', 'g'] && bAt s q then
      contentAfterWs s (q + 3)
    else none
  let cue :=
    match eeg with
    | some r => some r
    | none =>
      if s[q]? = some '→' && bAt s q then contentAfterWs s (q + 1) else none
  match cue with
  | some (cs, cl) =>
    let tr := runLen isTermCh (s.drop (cs + cl))
    some ((s.drop cs).take cl, cs + cl + tr)
  | none => none

/-- `SEE_ALSO_PHRASE` match attempt at `p`:
`\b(?:ld|eeg\s+sidoo\s+kale)\s+([^)\.;:]+)` (IGNORECASE), `ld` first. -/
def sapMatchAt (s : Str) (p : Nat) : Option (Str × Nat) :=
  let ld :=
    if ciStarts (s.drop p) ['l', 'd'] && bAt s p then contentAfterWs s (p + 2)
    else none
  let cue :=
    match ld with
    | some r => some r
    | none =>
      if ciStarts (s.drop p) ['e', 'e', 'g'] && bAt s p then
        let sp1 := runLen isWs (s.drop (p + 3))
        if 1 ≤ sp1 && ciStarts (s.drop (p + 3 + sp1)) ['s', 'i', 'd', 'o', 'o'] then
          let q2 := p + 3 + sp1 + 5
          let sp2 := runLen isWs (s.drop q2)
          if 1 ≤ sp2 && ciStarts (s.drop (q2 + sp2)) ['k', 'a', 'l', 'e'] then
            contentAfterWs s (q2 + sp2 + 4)
          else none
        else none
      else none
  match cue with
  | some (cs, cl) => some ((s.drop cs).take cl, cs + cl)
  | none => none

/-- `CROSS_REF_TOKEN` match attempt at `p`:
`\beeg\s+([A-Za-z’′ʼʻ'¹²³\-]+)` (IGNORECASE). The token class contains no
whitespace, so no give-back from `\s+` is possible. -/
def crtMatchAt (s : Str) (p : Nat) : Option (Str × Nat) :=
  if ciStarts (s.drop p) ['e', 'e', 'g'] && bAt s p then
    let sp := runLen isWs (s.drop (p + 3))
    if 1 ≤ sp then
      let g := runLen refClassCh (s.drop (p + 3 + sp))
      if 1 ≤ g then some ((s.drop (p + 3 + sp)).take g, p + 3 + sp + g) else none
    else none
  else none

/-- `SEE_ALSO_TOKEN` match attempt at `p`: `\bld\s+([A-Za-z’′ʼʻ'¹²³\-]+)`. -/
def satMatchAt (s : Str) (p : Nat) : Option (Str × Nat) :=
  if ciStarts (s.drop p) ['l', 'd'] && bAt s p then
    let sp := runLen isWs (s.drop (p + 2))
    if 1 ≤ sp then
      let g := runLen refClassCh (s.drop (p + 2 + sp))
      if 1 ≤ g then some ((s.drop (p + 2 + sp)).take g, p + 2 + sp + g) else none
    else none
  else none

/-- Generic `finditer` scan: leftmost non-overlapping matches, resuming at
each match's end (every matcher above produces matches of positive length). -/
def scanGo (n : Nat) (f : Nat → Option (Str × Nat)) : Nat → Nat → List Str
  | 0, _ => []
  | fuel + 1, p =>
    if n ≤ p then []
    else
      match f p with
      | some (c, e) => c :: scanGo n f fuel (max e (p + 1))
      | none => scanGo n f fuel (p + 1)

def findAllMatches (f : Str → Nat → Option (Str × Nat)) (s : Str) : List Str :=
  scanGo s.length (f s) (s.length + 1) 0

def crossRefPhrases (s : Str) : List Str := findAllMatches crpMatchAt s
def seeAlsoPhrases (s : Str) : List Str := findAllMatches sapMatchAt s
def crossRefTokens (s : Str) : List Str := findAllMatches crtMatchAt s
def seeAlsoTokens (s : Str) : List Str := findAllMatches satMatchAt s

/-! ### `re.sub(r"\s+-\s+", "-", t)` and `_split_refs` -/

/-- Hyphen-wrap collapsing: a whitespace run, a hyphen, and a whitespace run
are replaced by a single hyphen; leftmost, non-overlapping. -/
def hyphenSubGo : Nat → Str → Str
  | 0, s => s
  | _ + 1, [] => []
  | fuel + 1, c :: cs =>
    if isWs c then
      let a := runLen isWs (c :: cs)
      match (c :: cs)[a]? with
      | some '-' =>
        let rest := (c :: cs).drop (a + 1)
        let b := runLen isWs rest
        if 1 ≤ b then '-' :: hyphenSubGo fuel (rest.drop b)
        else c :: hyphenSubGo fuel cs
      | _ => c :: hyphenSubGo fuel cs
    else c :: hyphenSubGo fuel cs

def hyphenSub (s : Str) : Str := hyphenSubGo s.length s

/-- `re.split(r"[;,،]", chunk)`: split on every separator, keeping empties. -/
def splitSeps (s : Str) : List Str :=
  let rec go : Str → Str → List Str
    | acc, [] => [acc.reverse]
    | acc, c :: cs =>
      if c = ';' || c = ',' || c = '،' then acc.reverse :: go [] cs
      else go (c :: acc) cs
  go [] s

/-- `re.sub(r"^(eeg\s+|ld\s+)", "", p)` — case-sensitive, first alternative
wins, greedy trailing whitespace. -/
def dropCue (p : Str) : Str :=
  if p.take 3 = ['e', 'e', 'g'] then
    let sp := runLen isWs (p.drop 3)
    if 1 ≤ sp then p.drop (3 + sp) else p
  else if p.take 2 = ['l', 'd'] then
    let sp := runLen isWs (p.drop 2)
    if 1 ≤ sp then p.drop (2 + sp) else p
  else p

/-- `_split_refs`. -/
def splitRefs (chunk : Str) : List Str :=
  (splitSeps chunk).foldl
    (fun parts piece =>
      let p := normalize (pyStrip piece)
      if p = [] then parts else parts ++ [dropCue p])
    []

/-- `if x and x not in xs: xs.append(x)`. -/
def addUnique (xs : List Str) (x : Str) : List Str :=
  if x ≠ [] && !(xs.contains x) then xs ++ [x] else xs

/-! ### Data model

Page geometry uses `Q` for the script's floats; bounding boxes are
`(x0, y0, x1, y1)` quadruples as in PyMuPDF. -/

structure Box where
  x0 : Q
  y0 : Q
  x1 : Q
  y1 : Q
deriving DecidableEq, Repr

structure Span where
  text : Str
  box : Box
  size : Q
  font : Str
deriving DecidableEq, Repr

/-- One line record (`lines_data` element): bbox, spans and the raw
concatenation of the span texts. -/
structure PLine where
  box : Box
  spans : List Span
deriving DecidableEq, Repr

/-- Raw span text concatenation `"".join(s.get('text','') for s in spans)`. -/
def joinSpans (spans : List Span) : Str := (spans.map Span.text).flatten

/-- A word record used by `detect_columns` (only the x extent matters). -/
structure Word where
  x0 : Q
  x1 : Q
deriving DecidableEq, Repr

/-- A drawing path item as consumed by `detect_divider_x`; the script reads
the segment coordinates out of `rect`/`bbox`/`points`, which we collapse into
the final endpoint coordinates, plus the `type == 'line'` tag. -/
structure DrawItem where
  isLine : Bool
  x0 : Q
  y0 : Q
  x1 : Q
  y1 : Q
deriving DecidableEq, Repr

structure Drawing where
  items : List DrawItem
deriving DecidableEq, Repr

/-- One PDF page as handed to `extract_page_entries`: dimensions, the text
blocks of `get_text("dict")` and the drawings of `get_drawings()`. -/
structure Page where
  width : Q
  height : Q
  blocks : List (List PLine)
  drawings : List Drawing
deriving DecidableEq, Repr

structure Sense where
  text : Str
deriving DecidableEq, Repr

/-- The `Entry` dataclass. -/
structure Entry where
  word : Str
  pos : Str := []
  senses : List Sense := []
  seeAlso : List Str := []
  crossRefs : List Str := []
  crossRefTargets : List Str := []
  seeAlsoTargets : List Str := []
  page : Int := -1
  column : Nat := 0
  box : Box := ⟨0, 0, 0, 0⟩
deriving DecidableEq, Repr

/-! ### Stable sorting (Python `sorted` / `list.sort`) -/

/-- Stable insertion: `x` goes before the first element with a strictly
larger key, hence after earlier elements with an equal key — the behavior of
Python's stable sort. -/
def insSorted (f : α → Q) (x : α) : List α → List α
  | [] => [x]
  | y :: ys => if f x ≤ f y then x :: y :: ys else y :: insSorted f x ys

def pySortBy (f : α → Q) : List α → List α
  | [] => []
  | x :: xs => insSorted f x (pySortBy f xs)

/-! ### `detect_columns` -/

abbrev Band := Q × Q

/-- The clustering loop of `detect_columns`: split whenever the next word's
`x0` exceeds the current band's right edge by more than `min_gap`. -/
def clusterGo (g : Q) (cur : Band) : List (Q × Q) → List Band
  | [] => [cur]
  | (x0, x1) :: rest =>
    if g < x0 - cur.2 then cur :: clusterGo g (x0, x1) rest
    else clusterGo g (min cur.1 x0, max cur.2 x1) rest

/-- The greedy coalescing pass applied when more than three bands result:
adjacent bands closer than `2 * min_gap` are merged. -/
def mergeGo (g : Q) (last : Band) : List Band → List Band
  | [] => [last]
  | b :: rest =>
    if b.1 - last.2 < 2 * g then mergeGo g (min last.1 b.1, max last.2 b.2) rest
    else last :: mergeGo g b rest

/-- The bands produced by the initial gap clustering (before the merge pass):
word extents sorted by `x0`, split at gaps larger than `min_gap`. -/
def initialClusterBands (words : List Word) (g : Q) : List Band :=
  match pySortBy (fun t => t.1) (words.map fun w => (w.x0, w.x1)) with
  | [] => []
  | b :: rest => clusterGo g b rest

/-- `detect_columns(words, min_gap=20.0)`. -/
def detectColumns (words : List Word) (g : Q) : List Band :=
  let bands := initialClusterBands words g
  if 3 < bands.length then
    match bands with
    | [] => []
    | b0 :: bs => mergeGo g b0 bs
  else bands

/-! ### `detect_divider_x` -/

/-- Whether a drawing item qualifies as a column divider: a straight `line`
item, near-vertical (|x0−x1| < 1), longer than 60% of the page height, with
x in the middle 40% of the page width. -/
def dividerQualifies (w h : Q) (it : DrawItem) : Bool :=
  it.isLine && Q.qAbs (it.x0 - it.x1) < 1 && h * (6 / 10) < Q.qAbs (it.y1 - it.y0) &&
    w * (3 / 10) < it.x0 && it.x0 < w * (7 / 10)

def qSum : List Q → Q
  | [] => 0
  | x :: xs => x + qSum xs

/-- The clustering fallback of `detect_divider_x`: the midpoint of the means
of the two x0 clusters split at the median left edge. -/
def fallbackDivider (lineXs : List Q) : Option Q :=
  match pySortBy id lineXs with
  | [] => none
  | xs@(_ :: _) =>
    let mid := xs.getD (xs.length / 2) 0
    let lows := xs.filter fun v => v ≤ mid
    let highs := xs.filter fun v => mid < v
    let leftMean := qSum lows / max 1 (lows.length : Q)
    let rightMean := qSum highs / max 1 (highs.length : Q)
    some ((leftMean + rightMean) / 2)

/-- `detect_divider_x(page, lines_data)`: the first qualifying drawing item's
x, else the two-cluster fallback over the lines' left edges. -/
def detectDividerX (page : Page) (linesData : List PLine) : Option Q :=
  match ((page.drawings.map Drawing.items).flatten).find?
      (dividerQualifies page.width page.height) with
  | some it => some it.x0
  | none => fallbackDivider (linesData.map fun ld => ld.box.x0)

/-! ### Column assignment (nearest band by line center) -/

/-- The band-selection loop: the first band containing the center x wins
(`break`); otherwise the first band at minimal distance. `none` is the
initial `float('inf')` best distance. -/
def assignGo (cx : Q) : List Band → Nat → Nat → Option Q → Nat
  | [], _, bestI, _ => bestI
  | (bx0, bx1) :: rest, i, bestI, bestD =>
    if bx0 ≤ cx && cx ≤ bx1 then i
    else
      let d := min (Q.qAbs (cx - bx0)) (Q.qAbs (cx - bx1))
      if (match bestD with | none => true | some bd => d < bd) then
        assignGo cx rest (i + 1) i (some d)
      else assignGo cx rest (i + 1) bestI bestD

def assignIdx (bands : List Band) (ld : PLine) : Nat :=
  assignGo ((ld.box.x0 + ld.box.x1) / 2) bands 0 0 none

/-! ### Baseline / indent estimation (lines 257–348 of the script)

The float constants 0.15, 8.0, 40.0, 14.0, 22.0 become the corresponding
rationals. -/

/-- `int(len * 0.15)` with 0.15 read as 3/20: trim count for the trimmed median. -/
def trimCount (n : Nat) : Nat := n * 15 / 100

/-- `srt[k : len-k] if len - 2k > 0 else srt`, then take `[len//2]`. -/
def trimmedMedian (xs : List Q) : Q :=
  let srt := pySortBy id xs
  let k := trimCount srt.length
  let srt' := if 0 < (srt.length : Int) - 2 * k
    then (srt.drop k).take (srt.length - 2 * k) else srt
  srt'.getD (srt'.length / 2) 0

/-- Per-line candidate for the word-shape fallback: whether the first span
text is word-shaped, and the sizes of the nonblank spans. -/
def lineCandidate (ld : PLine) : Option (Q × List Q) :=
  match ld.spans with
  | [] => none
  | first :: _ =>
    if wpMatch (normalize first.text) then
      some (ld.box.x0, (ld.spans.filterMap fun s =>
        if pyStrip s.text ≠ [] then some s.size else none))
    else none

/-- Insertion-ordered counting histogram. -/
def histAdd (h : List (Q × Nat)) (k : Q) : List (Q × Nat) :=
  if h.any (fun kv => kv.1 = k) then
    h.map fun kv => if kv.1 = k then (kv.1, kv.2 + 1) else kv
  else h ++ [(k, 1)]

/-- `max(h.items(), key=lambda kv: kv[1])`: first entry with maximal count. -/
def firstMaxBy (h : List (Q × Nat)) : Option (Q × Nat) :=
  h.foldl
    (fun acc kv =>
      match acc with
      | none => some kv
      | some best => if best.2 < kv.2 then some kv else acc)
    none

/-- The headword-baseline estimate `head_left` for one column. -/
def estimateHeadLeft (col : List PLine) : Option Q :=
  let headwordLefts := col.filterMap fun ld =>
    match headlineMatch (normalize (joinSpans ld.spans)) with
    | some (_, rest) =>
      if (posMatch (normalize rest)).isSome then some ld.box.x0 else none
    | none => none
  if headwordLefts ≠ [] then some (trimmedMedian headwordLefts)
  else
    let acc := col.foldl
      (fun (acc : List (Q × Q) × List Q) ld =>
        match lineCandidate ld with
        | some (x0, sizes) =>
          let maxSize := (sizes.foldl max 0 : Q)
          (acc.1 ++ [(x0, if sizes = [] then 0 else maxSize)], acc.2 ++ sizes)
        | none => acc)
      ([], [])
    let candidates := acc.1
    let sizePool := acc.2
    if candidates ≠ [] then
      let med := if sizePool ≠ []
        then (pySortBy id sizePool).getD (sizePool.length / 2) 0 else 0
      let xs := (candidates.filter fun c => med ≤ c.2).map Prod.fst
      let xs := if xs = [] then candidates.map Prod.fst else xs
      let srt := pySortBy id xs
      let k := trimCount srt.length
      let srt' := if 0 < (srt.length : Int) - 2 * k
        then (srt.drop k).take (srt.length - 2 * k) else srt
      if srt' ≠ [] then some (srt'.getD (srt'.length / 2) 0) else none
    else none

/-- The histogram fallback of the estimator (only reached with no baseline):
mode of 2-unit-rounded left edges as baseline, secondary mode 14–40 units to
its right as indent (22 if absent). Returns `(head_left, indent_delta)`. -/
def histEstimate (col : List PLine) : Option Q × Q :=
  if col ≠ [] then
    let hist := col.foldl
      (fun h ld => histAdd h ((pyRound (ld.box.x0 / 2) : Q) * 2)) []
    match firstMaxBy hist with
    | some (hl, _) =>
      let indentCands := hist.filter fun kv => 14 ≤ kv.1 - hl && kv.1 - hl ≤ 40
      match firstMaxBy indentCands with
      | some (ix, _) => (some hl, ix - hl)
      | none => (some hl, 22)
    | none => (none, 20)
  else (none, 20)

/-- The full estimation for one column: `head_left` and `indent_delta`
(initially 20.0). -/
def estimateColumn (col : List PLine) : Option Q × Q :=
  match estimateHeadLeft col with
  | some hl =>
    let diffs := col.filterMap fun ld =>
      let d := ld.box.x0 - hl
      if 8 < d && d < 40 then some d else none
    if diffs ≠ [] then
      let srt := pySortBy id diffs
      let k2 := trimCount srt.length
      let srt' := if 0 < (srt.length : Int) - 2 * k2
        then (srt.drop k2).take (srt.length - 2 * k2) else srt
      if srt' ≠ [] then (some hl, srt'.getD (srt'.length / 2) 0) else (some hl, 20)
    else (some hl, 20)
  | none => histEstimate col

/-! ### Entry creation (the three creation sites of the classifier) -/

def freshEntry (hw : Str) (p : Int) (c : Nat) (bb : Box) : Entry :=
  { word := hw, page := p, column := c, box := bb }

/-- Rule 2 (new headword) entry creation, lines 451–490 of the script:
headword from the headline word group; POS captured after stripping alias
parentheticals; an inflection parenthetical immediately after the POS is
dropped; the remainder becomes the first sense. `none` when the line does
not satisfy `pos_in_line` (in the classifier that guard has already held,
so the creation always succeeds there). -/
def rule2Create (t : Str) (p : Int) (c : Nat) (bb : Box) : Option Entry :=
  match headlineMatch t with
  | none => none
  | some (w, rest) =>
    let ra := normalize rest
    if ra = [] then none
    else
      let tmp := parenStripWhile ra
      match posMatch tmp with
      | none => none
      | some len =>
        let e := { freshEntry (normalize w) p c bb with pos := tmp.take len }
        let r := parenStripOnce (pyStrip (tmp.drop len))
        some (if r ≠ [] then { e with senses := [⟨r⟩] } else e)

/-- Rule 3 (mid-continuation promotion) entry creation, lines 502–523: the
same headline/POS analysis, but the matched POS token is consumed without
being stored (`pos` keeps its default), and the remainder is `lstrip`ped
rather than `strip`ped. -/
def promoteCreate (t : Str) (p : Int) (c : Nat) (bb : Box) : Option Entry :=
  match headlineMatch t with
  | none => none
  | some (w, rest) =>
    let rest2 := parenStripWhile (normalize rest)
    match posMatch rest2 with
    | none => none
    | some len =>
      let e := freshEntry (normalize w) p c bb
      let r := parenStripOnce (pyLstrip (rest2.drop len))
      some (if r ≠ [] then { e with senses := [⟨r⟩] } else e)

/-- Rule 5 (inline headword break) entry creation, lines 543–551: headword
and post-POS remainder come from `find_inline_headword_break`; a leading
parenthetical of the remainder is stripped; `pos` is never set. -/
def inlineCreate (hw rest : Str) (p : Int) (c : Nat) (bb : Box) : Entry :=
  let r := parenStripOnce rest
  if r ≠ [] then { freshEntry hw p c bb with senses := [⟨r⟩] }
  else freshEntry hw p c bb

/-! ### The per-column state machine -/

/-- Append `t` to the current entry's last sense (normalizing the joint), or
open the first sense with `t` verbatim. -/
def contAppend (e : Entry) (t : Str) : Entry :=
  match e.senses.getLast? with
  | none => { e with senses := [⟨t⟩] }
  | some lastS =>
    { e with senses := e.senses.dropLast ++ [⟨normalize (lastS.text ++ ' ' :: t)⟩] }

structure FsmSt where
  current : Option Entry
  entries : List Entry
deriving DecidableEq, Repr

/-- Whether `pos_in_line` holds for (normalized) line text `t`. -/
def posInLine (t : Str) : Bool :=
  match headlineMatch t with
  | some (_, rest) =>
    let ra := normalize rest
    if ra = [] then false else (posMatch (parenStripWhile ra)).isSome
  | none => false

/-- One step of the classifier (lines 352–562 of the script) for one line.
The locals `gap_ok`, `looks_like_headword`, `is_continuation_by_indent`,
`aligned_vs_current`, `last_y`, `last_left` and `local_sizes` are computed by
the script but never influence any branch taken, so they are omitted here.
`carry` is the (read-only) `carry_from_prev_col` slot. -/
def processLine (pageNum : Int) (colIdx : Nat) (headLeft : Option Q)
    (indent : Q) (carry : Option Entry) (st : FsmSt) (ld : PLine) : FsmSt :=
  let text := normalize (joinSpans ld.spans)
  if text = [] then st
  else
    let x0 := ld.box.x0
    -- cross-column carry-over adoption (lines 400–419)
    let current0 :=
      match st.current, carry, headLeft with
      | none, some c, some hl =>
        let alignedTmp := Q.qAbs (x0 - hl) ≤ 8
        let posNear :=
          match headlineMatch text with
          | some (_, rest) => (posMatch (parenStripWhile (normalize rest))).isSome
          | none => false
        if hl + indent - 2 ≤ x0 && !(alignedTmp && posNear) then some c else none
      | cur, _, _ => cur
    let aligned :=
      match headLeft with
      | none => true
      | some hl => Q.qAbs (x0 - hl) ≤ 8
    if posInLine text && aligned then
      -- rule 2: finalize any open entry, start a new one
      { current := rule2Create text pageNum colIdx ld.box,
        entries := st.entries ++ current0.toList }
    else
      match current0 with
      | none => st  -- noise line before the first headword
      | some cur =>
        -- rule 3: promotion under the looser 10-unit tolerance
        let promoted :=
          match headLeft with
          | some hl =>
            if Q.qAbs (x0 - hl) ≤ 10 then promoteCreate text pageNum colIdx ld.box
            else none
          | none => none
        match promoted with
        | some e => { current := some e, entries := st.entries ++ [cur] }
        | none =>
          if startsNumberedSense text then
            -- rule 4: new numbered sense
            { current := some { cur with senses := cur.senses ++ [⟨text⟩] },
              entries := st.entries }
          else
            match findInlineBreak text with
            | some (idx, hw, irest) =>
              if (match headLeft with
                  | none => true
                  | some hl => Q.qAbs (x0 - hl) ≤ 12) then
                -- rule 5: split at the inline headword break
                let leftPart := pyRstrip (text.take idx)
                let cur1 := if leftPart ≠ [] then contAppend cur leftPart else cur
                { current := some (inlineCreate hw irest pageNum colIdx ld.box),
                  entries := st.entries ++ [cur1] }
              else
                { current := some (contAppend cur text), entries := st.entries }
            | none =>
              { current := some (contAppend cur text), entries := st.entries }

/-- One column: estimate the baseline, run the classifier on the lines in
order, and flush the open entry at column end. -/
def processColumn (pageNum : Int) (colIdx : Nat) (carry : Option Entry)
    (col : List PLine) : List Entry :=
  let est := estimateColumn col
  let st := col.foldl (processLine pageNum colIdx est.1 est.2 carry) ⟨none, []⟩
  st.entries ++ st.current.toList

/-! ### Per-entry post-processing (lines 568–607) -/

/-- Post-process one entry: normalize word and POS, collapse hyphen wraps in
each sense, and harvest cross-reference / see-also mentions (phrase matchers
first, then the single-token fallbacks, deduplicating by exact string). -/
def postEntry (e : Entry) : Entry :=
  let step := fun (acc : List Sense × List Str × List Str) (s : Sense) =>
    let t := hyphenSub (pyStrip s.text)
    let crs := (crossRefPhrases t).foldl
      (fun cr ph => (splitRefs ph).foldl addUnique cr) acc.2.1
    let sas := (seeAlsoPhrases t).foldl
      (fun sa ph => (splitRefs ph).foldl addUnique sa) acc.2.2
    let crs := (crossRefTokens t).foldl
      (fun cr tok => addUnique cr (normalize tok)) crs
    let sas := (seeAlsoTokens t).foldl
      (fun sa tok => addUnique sa (normalize tok)) sas
    (acc.1 ++ [⟨t⟩], crs, sas)
  let res := e.senses.foldl step ([], e.crossRefs, e.seeAlso)
  { e with
    word := normalize e.word
    pos := if e.pos ≠ [] then normalize e.pos else e.pos
    senses := res.1
    crossRefs := res.2.1
    seeAlso := res.2.2 }

/-! ### `extract_page_entries` -/

/-- The kept `lines_data` of a page: lines with at least one span and
outside the fixed 6% top/bottom margin bands. -/
def collectLines (page : Page) : List PLine :=
  let band := page.height * (6 / 100)
  page.blocks.flatten.filter fun l =>
    l.spans ≠ [] &&
      !(l.box.y0 < band || page.height - l.box.y1 < band)

/-- The word records of a page (nonblank spans of the kept lines). -/
def collectWords (page : Page) : List Word :=
  (collectLines page).flatMap fun l =>
    l.spans.filterMap fun s =>
      if pyStrip s.text ≠ [] then some ⟨s.box.x0, s.box.x1⟩ else none

/-- The column bands handed to the classifier: the divider-based two-way
split when a divider is found (ε = 1), else `detect_columns` over the word
records, else a single full-width band; finally sorted by `x0`. -/
def pageColBands (page : Page) : List Band :=
  let divider := detectDividerX page (collectLines page)
  let bands :=
    match divider with
    | some d => [((0 : Q), max 0 (d - 1)), (min page.width (d + 1), page.width)]
    | none =>
      let cb := detectColumns (collectWords page) 20
      if cb = [] then [((0 : Q), page.width)] else cb
  pySortBy (fun b => b.1) bands

/-- `extract_page_entries(page, page_num)`: columnize, sort each column by y,
classify column by column (the `carry_from_prev_col` slot is initialized to
`None` before the column loop and never assigned afterwards, so every column
receives `none`), then post-process all entries. -/
def extractPageEntries (page : Page) (pageNum : Int) : List Entry :=
  let linesData := collectLines page
  let bands := pageColBands page
  let cols := (List.range bands.length).map fun i =>
    pySortBy (fun ld => ld.box.y0) (linesData.filter fun ld => assignIdx bands ld = i)
  let entries := ((List.range bands.length).zip cols).flatMap fun ic =>
    processColumn pageNum ic.1 none ic.2
  entries.map postEntry

/-! ### Cross-reference resolution and `parse_pages` -/

/-- `strip_superscripts`: remove every `¹²³`. -/
def stripSup (s : Str) : Str :=
  s.filter fun c => !(c = '¹' || c = '²' || c = '³')

/-- Resolution of a single raw token against the batch: exactly one entry
under the exact normalized word resolves to it; otherwise the first entry
(in batch order) under the superscript-stripped word; otherwise the
normalized token itself. The `word_id` of an entry is its word string.
The dictionary indexes of the script, which preserve insertion order, are
expressed as filters over the batch list. -/
def resolveToken (entries : List Entry) (token : Str) : Str :=
  let nk := normalize token
  let base := stripSup nk
  match entries.filter fun e => normalize e.word = nk with
  | [e] => e.word
  | _ =>
    match entries.filter fun e => stripSup (normalize e.word) = base with
    | e :: _ => e.word
    | [] => nk

def resolveList (entries : List Entry) (items : List Str) : List Str :=
  items.map (resolveToken entries)

/-- The document handed to `parse_pages`: its pages in order. -/
structure Document where
  pages : List Page
deriving Repr

/-- `parse_pages(pdf, pages)`: out-of-range page numbers are skipped,
in-range pages are extracted in the requested order, then cross-reference
and see-also tokens are resolved against the collected batch. An empty
request yields the empty list (no error path exists). -/
def parsePages (doc : Document) (pages : List Int) : List Entry :=
  let raw := pages.foldl
    (fun acc p =>
      if p < 1 || (doc.pages.length : Int) < p then acc
      else
        match doc.pages[(p - 1).toNat]? with
        | some pg => acc ++ extractPageEntries pg p
        | none => acc)
    []
  raw.map fun e =>
    { e with
      crossRefTargets := resolveList raw e.crossRefs
      seeAlsoTargets := resolveList raw e.seeAlso }

/-! ### Definitions modelled from the specification's wording

These deliberately follow the spec text (not the source) and are compared
against the source-derived definitions above. -/

/-- Modelled from the spec (claim C3): "the normalized text of the line that
precedes the matched part-of-speech token, with no leading or trailing
whitespace". The POS token starts where the alias-stripped remainder of the
headline match begins, i.e. `|t|` minus the length of that remainder. -/
def specWordBeforePos (t : Str) : Str :=
  match headlineMatch t with
  | some (_, rest) =>
    normalize (t.take (t.length - (parenStripWhile (normalize rest)).length))
  | none => []

/-- Modelled from the spec (claim C8): "sort all Line left-edges; split into
bands wherever the gap between consecutive left-edges exceeds a configurable
minimum gap (default 20 layout units)". Each left edge is a degenerate
`[x, x]` extent, so the bands are the clusters' min/max edges. -/
def specGapClusterBands (edges : List Q) (g : Q) : List Band :=
  match pySortBy id edges with
  | [] => []
  | x :: rest => clusterGo g (x, x) (rest.map fun v => (v, v))

/-- Modelled from the spec (claim C2): the "earliest page, then earliest
column, then earliest line" order on entries; an entry's line is ordered by
the top edge of its headword bounding box. -/
def lexLe (a b : Entry) : Prop :=
  a.page < b.page ∨
    (a.page = b.page ∧
      (a.column < b.column ∨ (a.column = b.column ∧ a.box.y0 ≤ b.box.y0)))

instance : DecidablePred fun p : Entry × Entry => lexLe p.1 p.2 := by
  intro p; unfold lexLe; infer_instance

instance (a b : Entry) : Decidable (lexLe a b) := by
  unfold lexLe; infer_instance

/-- Modelled from the spec (claim C2): what the resolved target at one
position must be — the unique exact-index entry's identity if the exact
index holds exactly one entry; else the earliest (page, column, line) entry
of the superscript-stripped index when nonempty; else the normalized token. -/
def specResolvedTarget (entries : List Entry) (token target : Str) : Prop :=
  let nk := normalize token
  match entries.filter fun e => normalize e.word = nk with
  | [e] => target = e.word
  | _ =>
    match entries.filter fun e => stripSup (normalize e.word) = stripSup nk with
    | [] => target = nk
    | e :: rest => target = e.word ∧ ∀ e' ∈ e :: rest, lexLe e e'

/-! ### Concrete inputs -/

/-- A one-span line at the given box. -/
def mkLine (text : Str) (x0 y0 x1 y1 : Q) : PLine :=
  { box := ⟨x0, y0, x1, y1⟩,
    spans := [{ text := text, box := ⟨x0, y0, x1, y1⟩, size := 10, font := ['F'] }] }

/-- The column scenario of claim C7 exactly as the spec states it
(left edges 50, 70, 70, 50). -/
def c7LitPage : Page :=
  { width := 600, height := 800, drawings := [],
    blocks := [[mkLine "word1 m. first sense.".data 50 100 200 110,
                mkLine "continued text.".data 70 120 200 130,
                mkLine "2. second sense.".data 70 140 200 150,
                mkLine "word2 f.dh another definition.".data 50 160 250 170]] }

/-- The C7 scenario with digit-free headwords and a POS token the source's
`POS_PATTERN` accepts in place of the unmatched bare `m.`. -/
def c7FixPage : Page :=
  { width := 600, height := 800, drawings := [],
    blocks := [[mkLine "worda m.dh first sense.".data 50 100 200 110,
                mkLine "continued text.".data 70 120 200 130,
                mkLine "2. second sense.".data 70 140 200 150,
                mkLine "wordb f.dh another definition.".data 50 160 250 170]] }

/-- A page whose single line is a headword+POS with nothing after the POS
token: the classifier emits its entry with an empty sense list. -/
def c1Page : Page :=
  { width := 600, height := 800, drawings := [],
    blocks := [[mkLine "worda m.dh".data 50 100 150 110]] }

/-- Two baseline headword lines followed by a line at x = 59.5, inside the
looser 10-unit promotion tolerance but outside the strict 8-unit one. -/
def c4Page : Page :=
  { width := 600, height := 800, drawings := [],
    blocks := [[mkLine "worda m.dh aaa.".data 50 100 200 110,
                mkLine "wordb f.dh bbb.".data 50 120 200 130,
                mkLine "wordc g.dh ccc.".data (119 / 2) 140 200 150]] }

/-- A two-column page (vertical divider drawing at x = 300) whose first
column ends with an open entry and whose second column begins with an
indented continuation line ("more definition text." at x = 340, baseline of
that column being 320). -/
def c5Page : Page :=
  { width := 600, height := 800,
    drawings := [⟨[⟨true, 300, 50, 300, 750⟩]⟩],
    blocks := [[mkLine "worda m.dh bbb.".data 50 100 150 110,
                mkLine "more definition text.".data 340 100 450 110,
                mkLine "wordx f.dh xxx.".data 320 130 420 140]] }

/-- A drawing-free page whose kept lines share the left edge 50: the spec's
gap clustering would make a single band, but the engine derives a divider. -/
def c8Page : Page :=
  { width := 600, height := 800, drawings := [],
    blocks := [[mkLine "aaa bbb".data 50 100 150 110,
                mkLine "ccc ddd".data 50 130 150 140]] }

/-- Four words 100 apart: the initial clustering yields four bands and the
merge pass coalesces none of them. -/
def c9Words : List Word := [⟨0, 1⟩, ⟨100, 101⟩, ⟨200, 201⟩, ⟨300, 301⟩]

/-- The headline line of the C3 counterexample, with an alias parenthetical
between the headword and the POS token. -/
def c3Line : Str := "worda (xalias) m.dh bbb.".data

/-- A page classifying `c3Line` as a rule-2 headword. -/
def c3Page : Page :=
  { width := 600, height := 800, drawings := [],
    blocks := [[mkLine c3Line 50 100 250 110,
                mkLine "wordb f.dh ccc.".data 50 130 200 140]] }

/-- The word group of the headline match (the extracted headword source). -/
def headlineWordOf (t : Str) : Str :=
  match headlineMatch t with
  | some (w, _) => w
  | none => []

/-- The concrete rule-2 entry used to witness the amended claim C3. -/
def c3wEntry : Entry :=
  { word := "worda".data, pos := "m.dh".data, senses := [⟨"bbb.".data⟩],
    page := 1, column := 0, box := ⟨50, 100, 200, 110⟩ }

/-- A small resolved batch in (page, column, line) order, used to witness
claim C2: two entries sharing a superscript-stripped word, plus one on a
later page. -/
def c2Batch : List Entry :=
  [{ word := "qalin".data, page := 1, column := 0, box := ⟨0, 10, 0, 0⟩ },
   { word := "qalin¹".data, page := 1, column := 0, box := ⟨0, 20, 0, 0⟩ },
   { word := "buug".data, page := 2, column := 1, box := ⟨0, 5, 0, 0⟩ }]

/-- Tokens exercising the three resolver outcomes: a superscript variant hit
only by the stripped index, an unresolvable token, and an exact unique hit. -/
def c2Tokens : List Str := ["qalin²".data, "sawir".data, "buug".data]

/-! ### Predicates used by the invariant proofs -/

/-- No leading whitespace character. -/
def noLeadWs (s : Str) : Prop := ∀ c, s.head? = some c → isWs c = false

/-- No trailing whitespace character. -/
def noTrailWs (s : Str) : Prop := ∀ c, s.getLast? = some c → isWs c = false

/-- A well-formed stored word: nonempty and whitespace-free. -/
def GoodW (w : Str) : Prop := w ≠ [] ∧ ∀ c ∈ w, isWs c = false

/-! # Lemmas: whitespace, stripping and normalization -/

lemma head?_dropWhile_not (p : Char → Bool) (s : Str) :
    ∀ c, (s.dropWhile p).head? = some c → p c = false := by
  induction s with
  | nil => intro c h; simp at h
  | cons a t ih =>
    intro c h
    rw [List.dropWhile_cons] at h
    by_cases hpa : p a = true
    · rw [if_pos hpa] at h; exact ih c h
    · rw [if_neg hpa] at h
      simp only [List.head?_cons, Option.some.injEq] at h
      subst h; simpa using hpa

lemma noLead_pyLstrip (s : Str) : noLeadWs (pyLstrip s) := fun c h =>
  head?_dropWhile_not _ s c h

lemma noTrail_pyRstrip (s : Str) : noTrailWs (pyRstrip s) := by
  intro c h
  unfold pyRstrip at h
  rw [List.getLast?_reverse] at h
  exact head?_dropWhile_not _ _ c h

lemma noTrail_suffix {s t : Str} (hsuf : t <:+ s) (h : noTrailWs s) :
    noTrailWs t := by
  intro c hc
  obtain ⟨u, rfl⟩ := hsuf
  have ht : t ≠ [] := by rintro rfl; simp at hc
  refine h c ?_
  rwa [List.getLast?_append_of_ne_nil u ht]

lemma drop_noTrail {s : Str} (h : noTrailWs s) (n : Nat) :
    noTrailWs (s.drop n) := noTrail_suffix (List.drop_suffix n s) h

lemma pyLstrip_noTrail {s : Str} (h : noTrailWs s) : noTrailWs (pyLstrip s) :=
  noTrail_suffix (List.dropWhile_suffix _) h

lemma rstrip_eq_self {s : Str} (h : noTrailWs s) : pyRstrip s = s := by
  unfold pyRstrip
  have hd : s.reverse.dropWhile (fun c => isWs c) = s.reverse := by
    cases hr : s.reverse with
    | nil => simp
    | cons a t =>
      rw [List.dropWhile_cons]
      have ha : isWs a = false := by
        refine h a ?_
        rw [← List.head?_reverse, hr, List.head?_cons]
      simp [ha]
  rw [hd, List.reverse_reverse]

lemma lstrip_eq_self {s : Str} (h : noLeadWs s) : pyLstrip s = s := by
  unfold pyLstrip
  cases s with
  | nil => rfl
  | cons a t =>
    have := h a (by rw [List.head?_cons])
    rw [List.dropWhile_cons, this]
    simp

lemma strip_eq_lstrip {s : Str} (h : noTrailWs s) : pyStrip s = pyLstrip s := by
  unfold pyStrip; exact rstrip_eq_self (pyLstrip_noTrail h)

lemma noTrail_pyStrip (s : Str) : noTrailWs (pyStrip s) := noTrail_pyRstrip _

lemma head?_pyRstrip {s : Str} (hne : pyRstrip s ≠ []) :
    (pyRstrip s).head? = s.head? := by
  obtain ⟨u, hu⟩ := List.dropWhile_suffix (l := s.reverse) (p := fun c => isWs c)
  have hs : s = (s.reverse.dropWhile (fun c => isWs c)).reverse ++ u.reverse := by
    have h2 := congrArg List.reverse hu
    rw [List.reverse_append, List.reverse_reverse] at h2
    exact h2.symm
  unfold pyRstrip at hne ⊢
  cases hr : (s.reverse.dropWhile (fun c => isWs c)).reverse with
  | nil => exact absurd hr hne
  | cons a t =>
    rw [hr] at hs
    have hs2 : s = a :: (t ++ u.reverse) := by simpa using hs
    rw [hs2]
    simp

lemma noLead_pyRstrip {s : Str} (h : noLeadWs s) : noLeadWs (pyRstrip s) := by
  intro c hc
  have hne : pyRstrip s ≠ [] := by rintro he; rw [he] at hc; simp at hc
  rw [head?_pyRstrip hne] at hc
  exact h c hc

lemma noLead_pyStrip (s : Str) : noLeadWs (pyStrip s) :=
  noLead_pyRstrip (noLead_pyLstrip s)

lemma pyStrip_idem (s : Str) : pyStrip (pyStrip s) = pyStrip s := by
  conv_lhs => rw [pyStrip, lstrip_eq_self (noLead_pyStrip s)]
  exact rstrip_eq_self (noTrail_pyStrip s)

lemma noTrail_normalize (s : Str) : noTrailWs (normalize s) := by
  unfold normalize
  split
  · intro c hc; simp_all
  · exact noTrail_pyStrip _

lemma pyStrip_normalize (s : Str) : pyStrip (normalize s) = normalize s := by
  unfold normalize
  split
  · simp_all [pyStrip, pyLstrip, pyRstrip]
  · exact pyStrip_idem _

lemma parenStripWhile_noTrail {s : Str} (h : noTrailWs s) :
    noTrailWs (parenStripWhile s) := by
  unfold parenStripWhile
  generalize s.length = fuel
  induction fuel generalizing s with
  | zero => simpa [pswGo] using h
  | succ n ih =>
    rw [pswGo]
    split
    · split
      · exact ih (pyLstrip_noTrail (drop_noTrail h _))
      · exact h
    · exact h

lemma parenStripWhile_nil : parenStripWhile [] = [] := rfl

/-! # Lemmas: words stored by the classifier are nonempty and space-free -/

lemma ws_cases {c : Char} (h : isWs c = true) :
    c = ' ' ∨ c = '\t' ∨ c = '\n' ∨ c = '\x0b' ∨ c = '\x0c' ∨ c = '\r' := by
  have h2 := h
  simp only [isWs, Bool.or_eq_true, decide_eq_true_eq] at h2
  tauto

lemma wordClass_not_ws {c : Char} (h : wordClassCh c = true) : isWs c = false := by
  by_contra hc
  rw [Bool.not_eq_false] at hc
  rcases ws_cases hc with rfl | rfl | rfl | rfl | rfl | rfl <;>
    exact absurd h (by decide)

lemma mapApos_ws (c : Char) : isWs (mapApos c) = isWs c := by
  unfold mapApos
  split
  · next h =>
    simp only [Bool.or_eq_true, decide_eq_true_eq] at h
    rcases h with ((rfl | rfl) | rfl) | rfl <;> decide
  · rfl

lemma collapse_no_ws {s : Str} (h : ∀ c ∈ s, isWs c = false) :
    collapseWs false s = s := by
  induction s with
  | nil => rfl
  | cons a t ih =>
    have ha : isWs a = false := h a (by simp)
    rw [collapseWs, ha]
    simp only [Bool.false_eq_true, if_false]
    rw [ih fun c hc => h c (by simp [hc])]

lemma normalize_no_ws {s : Str} (hne : s ≠ []) (h : ∀ c ∈ s, isWs c = false) :
    normalize s = s.map mapApos := by
  have hmap : ∀ c ∈ s.map mapApos, isWs c = false := by
    intro c hc
    obtain ⟨a, ha, rfl⟩ := List.mem_map.mp hc
    rw [mapApos_ws]; exact h a ha
  unfold normalize
  rw [if_neg hne, collapse_no_ws hmap, pyStrip, lstrip_eq_self, rstrip_eq_self]
  · intro c hc
    exact hmap c (List.mem_of_mem_getLast? hc)
  · intro c hc
    exact hmap c (List.mem_of_mem_head? hc)

lemma GoodW_normalize {w : Str} (h : GoodW w) : GoodW (normalize w) := by
  rw [normalize_no_ws h.1 h.2]
  refine ⟨by simpa using h.1, ?_⟩
  intro c hc
  obtain ⟨a, ha, rfl⟩ := List.mem_map.mp hc
  rw [mapApos_ws]; exact h.2 a ha

lemma mem_take_runLen {p : Char → Bool} {s : Str} :
    ∀ c ∈ s.take (runLen p s), p c = true := by
  induction s with
  | nil => intro c hc; simp [runLen] at hc
  | cons a t ih =>
    intro c hc
    unfold runLen at hc
    rw [List.takeWhile_cons] at hc
    by_cases hpa : p a = true
    · rw [if_pos hpa] at hc
      simp only [List.length_cons, List.take_succ_cons, List.mem_cons] at hc
      rcases hc with rfl | hc
      · exact hpa
      · exact ih c hc
    · rw [if_neg hpa] at hc
      simp at hc

lemma runLen_le_length (p : Char → Bool) (s : Str) : runLen p s ≤ s.length := by
  unfold runLen
  exact List.Sublist.length_le (List.takeWhile_sublist p)

lemma take_runLen_good {p : Char → Bool} {s : Str}
    (hcls : ∀ c, p c = true → isWs c = false) (hr : 1 ≤ runLen p s) :
    GoodW (s.take (runLen p s)) := by
  constructor
  · have : (s.take (runLen p s)).length = runLen p s := by
      rw [List.length_take]
      exact min_eq_left (runLen_le_length p s)
    intro he
    rw [he] at this
    simp at this
    omega
  · intro c hc
    exact hcls c (mem_take_runLen c hc)

lemma headline_word_good {t w r : Str} (h : headlineMatch t = some (w, r)) :
    GoodW w := by
  unfold headlineMatch at h
  dsimp only at h
  split at h
  · exact absurd h (by simp)
  · next hr0 =>
    split at h
    · exact absurd h (by simp)
    · have hr1 : 1 ≤ runLen wordClassCh t := Nat.one_le_iff_ne_zero.mpr hr0
      have hg := take_runLen_good (fun c => wordClass_not_ws) hr1
      split at h
      · obtain ⟨rfl, rfl⟩ := by simpa using h
        exact hg
      · split at h
        · obtain ⟨rfl, rfl⟩ := by simpa using h
          exact hg
        · exact absurd h (by simp)

lemma wicAt_some {s : Str} {p r e : Nat} (h : wicAt s p = some (r, e)) :
    r = runLen wordClassCh (s.drop p) ∧ 1 ≤ r := by
  unfold wicAt at h
  dsimp only at h
  split at h
  · split at h
    · next hcond =>
      simp only [Bool.and_eq_true, decide_eq_true_eq] at hcond
      split at h
      · obtain ⟨rfl, rfl⟩ := by simpa using h
        exact ⟨rfl, hcond.1⟩
      · exact absurd h (by simp)
    · exact absurd h (by simp)
  · exact absurd h (by simp)

lemma fibGo_good {s : Str} :
    ∀ {fuel p idx hw r}, fibGo s fuel p = some (idx, hw, r) → GoodW hw := by
  intro fuel
  induction fuel with
  | zero => intro p idx hw r h; simp [fibGo] at h
  | succ n ih =>
    intro p idx hw r h
    rw [fibGo] at h
    split at h
    · exact absurd h (by simp)
    · rename_i hlen
      cases hw1 : wicAt s p with
      | none => rw [hw1] at h; exact ih h
      | some re =>
        obtain ⟨r0, e0⟩ := re
        rw [hw1] at h
        dsimp only at h
        obtain ⟨hr0, hr1⟩ := wicAt_some hw1
        split at h
        · exact ih h
        · cases hpm : posMatch (parenStripOnce (pyLstrip (s.drop e0))) with
          | some pe =>
            rw [hpm] at h
            obtain ⟨rfl, rfl, rfl⟩ := by simpa using h
            refine GoodW_normalize ?_
            rw [hr0]
            exact take_runLen_good (fun c => wordClass_not_ws) (hr0 ▸ hr1)
          | none => rw [hpm] at h; exact ih h

lemma findInlineBreak_good {t : Str} {idx : Nat} {hw r : Str}
    (h : findInlineBreak t = some (idx, hw, r)) : GoodW hw := by
  unfold findInlineBreak at h
  split at h
  · exact absurd h (by simp)
  · exact fibGo_good h

lemma rule2Create_good {t : Str} {p : Int} {c : Nat} {bb : Box} {e : Entry}
    (h : rule2Create t p c bb = some e) : GoodW e.word := by
  unfold rule2Create at h
  cases hm : headlineMatch t with
  | none => rw [hm] at h; exact absurd h (by simp)
  | some wr =>
    obtain ⟨w, r⟩ := wr
    rw [hm] at h
    dsimp only at h
    split at h
    · exact absurd h (by simp)
    · cases hpm : posMatch (parenStripWhile (normalize r)) with
      | none => rw [hpm] at h; exact absurd h (by simp)
      | some len =>
        rw [hpm] at h
        dsimp only at h
        have hg := GoodW_normalize (headline_word_good hm)
        have he := Option.some.inj h
        split at he <;> (rw [← he]; exact hg)

lemma promoteCreate_good {t : Str} {p : Int} {c : Nat} {bb : Box} {e : Entry}
    (h : promoteCreate t p c bb = some e) : GoodW e.word := by
  unfold promoteCreate at h
  cases hm : headlineMatch t with
  | none => rw [hm] at h; exact absurd h (by simp)
  | some wr =>
    obtain ⟨w, r⟩ := wr
    rw [hm] at h
    dsimp only at h
    cases hpm : posMatch (parenStripWhile (normalize r)) with
    | none => rw [hpm] at h; exact absurd h (by simp)
    | some len =>
      rw [hpm] at h
      dsimp only at h
      have hg := GoodW_normalize (headline_word_good hm)
      have he := Option.some.inj h
      split at he <;> (rw [← he]; exact hg)

lemma inlineCreate_word (hw r : Str) (p : Int) (c : Nat) (bb : Box) :
    (inlineCreate hw r p c bb).word = hw := by
  unfold inlineCreate
  dsimp only
  split <;> rfl

lemma contAppend_word (e : Entry) (t : Str) : (contAppend e t).word = e.word := by
  unfold contAppend
  cases e.senses.getLast? <;> rfl

lemma promotedIf_good {t : Str} {p : Int} {c : Nat} {bb : Box} {e : Entry}
    {cond : Prop} [Decidable cond]
    (h : (if cond then promoteCreate t p c bb else none) = some e) :
    GoodW e.word := by
  split at h
  · exact promoteCreate_good h
  · simp at h

/-- One classifier step preserves the word invariant (the carry slot is
always `none` in the extractor, so only that instantiation is needed). -/
lemma processLine_good {pn : Int} {ci : Nat} {hl : Option Q} {ind : Q}
    {st : FsmSt} {ld : PLine}
    (hc : ∀ e, st.current = some e → GoodW e.word)
    (he : ∀ e ∈ st.entries, GoodW e.word) :
    (∀ e, (processLine pn ci hl ind none st ld).current = some e → GoodW e.word) ∧
      ∀ e ∈ (processLine pn ci hl ind none st ld).entries, GoodW e.word := by
  unfold processLine
  dsimp only
  split
  · exact ⟨hc, he⟩
  · have hcur0 :
        (match st.current, (none : Option Entry), hl with
          | none, some c0, some hl' =>
            if Q.qAbs (ld.box.x0 - hl') ≤ 8 then some c0 else none
          | cur, _, _ => cur) = st.current := by
      cases st.current <;> cases hl <;> rfl
    -- the adoption expression never fires with an empty carry; the concrete
    -- shape below matches after reduction in each branch
    cases hst : st.current with
    | none =>
      cases hhl : hl with
      | none =>
        dsimp only
        split
        · refine ⟨fun e h => rule2Create_good h, ?_⟩
          intro e hme
          rw [List.mem_append] at hme
          rcases hme with hme | hme
          · exact he e hme
          · simp at hme
        · exact ⟨fun e h => by rw [hst] at h; simp at h, he⟩
      | some hlv =>
        dsimp only
        split
        · refine ⟨fun e h => rule2Create_good h, ?_⟩
          intro e hme
          rw [List.mem_append] at hme
          rcases hme with hme | hme
          · exact he e hme
          · simp at hme
        · exact ⟨fun e h => by rw [hst] at h; simp at h, he⟩
    | some cur =>
      have hgcur : GoodW cur.word := hc cur hst
      cases hhl : hl with
      | none =>
        dsimp only
        split
        · refine ⟨fun e h => rule2Create_good h, ?_⟩
          intro e hme
          rw [List.mem_append] at hme
          rcases hme with hme | hme
          · exact he e hme
          · simp at hme
            rw [hme]; exact hgcur
        · -- promoted is `none` when headLeft is `none`
          split
          · refine ⟨?_, ?_⟩
            · intro e h
              obtain rfl := Option.some.inj h
              exact hgcur
            · exact he
          · cases hfib : findInlineBreak (normalize (joinSpans ld.spans)) with
            | some v =>
              obtain ⟨idx, hw, irest⟩ := v
              dsimp only
              split
              · refine ⟨?_, ?_⟩
                · intro e h
                  obtain rfl := Option.some.inj h
                  rw [inlineCreate_word]
                  exact findInlineBreak_good hfib
                · intro e hme
                  rw [List.mem_append] at hme
                  rcases hme with hme | hme
                  · exact he e hme
                  · simp only [List.mem_singleton] at hme
                    subst hme
                    split
                    · rw [contAppend_word]; exact hgcur
                    · exact hgcur
              · refine ⟨?_, he⟩
                intro e h
                obtain rfl := Option.some.inj h
                rw [contAppend_word]
                exact hgcur
            | none =>
              refine ⟨?_, he⟩
              intro e h
              obtain rfl := Option.some.inj h
              rw [contAppend_word]
              exact hgcur
      | some hlv =>
        dsimp only
        split
        · refine ⟨fun e h => rule2Create_good h, ?_⟩
          intro e hme
          rw [List.mem_append] at hme
          rcases hme with hme | hme
          · exact he e hme
          · simp at hme
            rw [hme]; exact hgcur
        · cases hpr : (if Q.qAbs (ld.box.x0 - hlv) ≤ 10
              then promoteCreate (normalize (joinSpans ld.spans)) pn ci ld.box
              else none) with
          | some pe =>
            dsimp only
            refine ⟨?_, ?_⟩
            · intro e h
              obtain rfl := Option.some.inj h
              exact promotedIf_good hpr
            · intro e hme
              rw [List.mem_append] at hme
              rcases hme with hme | hme
              · exact he e hme
              · simp at hme
                rw [hme]; exact hgcur
          | none =>
            dsimp only
            split
            · refine ⟨?_, he⟩
              intro e h
              obtain rfl := Option.some.inj h
              exact hgcur
            · cases hfib : findInlineBreak (normalize (joinSpans ld.spans)) with
              | some v =>
                obtain ⟨idx, hw, irest⟩ := v
                dsimp only
                split
                · refine ⟨?_, ?_⟩
                  · intro e h
                    obtain rfl := Option.some.inj h
                    rw [inlineCreate_word]
                    exact findInlineBreak_good hfib
                  · intro e hme
                    rw [List.mem_append] at hme
                    rcases hme with hme | hme
                    · exact he e hme
                    · simp only [List.mem_singleton] at hme
                      subst hme
                      split
                      · rw [contAppend_word]; exact hgcur
                      · exact hgcur
                · refine ⟨?_, he⟩
                  intro e h
                  obtain rfl := Option.some.inj h
                  rw [contAppend_word]
                  exact hgcur
              | none =>
                refine ⟨?_, he⟩
                intro e h
                obtain rfl := Option.some.inj h
                rw [contAppend_word]
                exact hgcur

set_option maxRecDepth 40000

/-- Claim C7, counterexample: the spec's column scenario, as stated
(headwords `word1`/`word2`, POS `m.`), yields **zero** entries, not two: the
headline pattern's word class contains no digits, so neither `word1 ...` nor
`word2 ...` matches rule 2 (and a bare `m.` followed by a space never matches
`POS_PATTERN`, whose trailing `\b` fails between `.` and a space). -/
theorem c7_scenario_counterexample : extractPageEntries c7LitPage 1 = [] := by
  decide

/-- Claim C7, amended: the same column scenario with digit-free headwords
(`worda`, `wordb`) and the POS tokens `m.dh`/`f.dh` (which `POS_PATTERN`
accepts, unlike bare `m.`) yields exactly the two claimed entries: the first
with two senses `"first sense. continued text."` and `"2. second sense."`,
the second with the single sense `"another definition."`. -/
theorem c7_scenario_amended :
    extractPageEntries c7FixPage 1 =
      [{ word := "worda".data, pos := "m.dh".data,
         senses := [⟨"first sense. continued text.".data⟩, ⟨"2. second sense.".data⟩],
         page := 1, column := 1, box := ⟨50, 100, 200, 110⟩ },
       { word := "wordb".data, pos := "f.dh".data,
         senses := [⟨"another definition.".data⟩],
         page := 1, column := 1, box := ⟨50, 160, 250, 170⟩ }] := by
  decide

/-- Claim C1, counterexample: a page whose only line is `worda m.dh`
(headword and POS, nothing after the POS token) emits an Entry whose sense
list is empty — the classifier never discards sense-less entries (the
`if not current.senses ...: pass` at line 454 does nothing). -/
theorem c1_counterexample :
    extractPageEntries c1Page 1 =
      [{ word := "worda".data, pos := "m.dh".data, senses := [],
         page := 1, column := 1, box := ⟨50, 100, 150, 110⟩ }] := by
  decide

/-- Claim C4, counterexample: on `c4Page` the third line (left edge 59.5,
within the looser 10-unit tolerance only) is promoted by rule 3, but its
entry's `pos` is the empty string, not the matched token `g.dh`: the
promotion branch consumes the POS match without storing it. -/
theorem c4_counterexample :
    (extractPageEntries c4Page 1).map Entry.pos =
      ["m.dh".data, "f.dh".data, []] := by
  decide

/-- Claim C5: evaluating the extractor on a two-column page whose first
column ends with the open entry `worda` and whose second column starts with
the indented line `"more definition text."` (left edge 340 = that column's
baseline 320 + indent 20). The spec's carry-over rule would adopt `worda`
and append the line, yielding the sense `"bbb. more definition text."`; the
code instead drops the line entirely: `carry_from_prev_col` is initialized
to `None` at line 250 and never assigned, so the adoption branch at lines
400–419 is unreachable. -/
theorem c5_no_carry_over :
    extractPageEntries c5Page 1 =
      [{ word := "worda".data, pos := "m.dh".data, senses := [⟨"bbb.".data⟩],
         page := 1, column := 0, box := ⟨50, 100, 150, 110⟩ },
       { word := "wordx".data, pos := "f.dh".data, senses := [⟨"xxx.".data⟩],
         page := 1, column := 1, box := ⟨320, 130, 420, 140⟩ }] := by
  decide

/-- Claim C8, counterexample: a drawing-free page whose kept lines both
start at x = 50. The claimed fallback (gap clustering of the line left
edges) would produce the single band `[50, 50]`; the engine instead derives
a divider from the two-cluster mean midpoint (here 25) and splits the page
into two bands around it. -/
theorem c8_counterexample :
    pageColBands c8Page = [(0, 24), (26, 600)] ∧
      specGapClusterBands ((collectLines c8Page).map fun ld => ld.box.x0) 20 =
        [(50, 50)] ∧
      pageColBands c8Page ≠
        specGapClusterBands ((collectLines c8Page).map fun ld => ld.box.x0) 20 := by
  refine ⟨by decide, by decide, by decide⟩

/-- Claim C9, counterexample: four words spaced 100 apart produce four
bands, every adjacent gap being at least twice the minimum gap, so the
greedy merge coalesces nothing: `detect_columns` returns more than three
bands. -/
theorem c9_counterexample : (detectColumns c9Words 20).length = 4 := by decide

/-- Claim C10, counterexample: requesting zero pages returns the empty list
normally — no error of any kind is signalled (the page loop and the
resolution pass both run vacuously). -/
theorem c10_counterexample : parsePages ⟨[c1Page]⟩ [] = [] := by decide

/-- Claim C10, amended: for every document, a zero-page request silently
yields the empty entry list; the embedded `parse_pages` is a total function,
so no request fails fatally. -/
theorem c10_zero_pages_silent (doc : Document) : parsePages doc [] = [] := rfl

lemma foldl_processLine_good {pn : Int} {ci : Nat} {hl : Option Q} {ind : Q}
    (col : List PLine) :
    ∀ st : FsmSt, (∀ e, st.current = some e → GoodW e.word) →
      (∀ e ∈ st.entries, GoodW e.word) →
      (∀ e, (col.foldl (processLine pn ci hl ind none) st).current = some e →
          GoodW e.word) ∧
        ∀ e ∈ (col.foldl (processLine pn ci hl ind none) st).entries, GoodW e.word := by
  induction col with
  | nil => intro st hc he; exact ⟨hc, he⟩
  | cons ld rest ih =>
    intro st hc he
    have hstep := @processLine_good pn ci hl ind st ld hc he
    exact ih _ hstep.1 hstep.2

lemma processColumn_good {pn : Int} {ci : Nat} (col : List PLine) :
    ∀ e ∈ processColumn pn ci none col, GoodW e.word := by
  intro e hme
  unfold processColumn at hme
  dsimp only at hme
  have h := @foldl_processLine_good pn ci (estimateColumn col).1
    (estimateColumn col).2 col
    ⟨none, []⟩ (fun _ h => by simp at h) (by intro _ h; simp at h)
  rw [List.mem_append] at hme
  rcases hme with hme | hme
  · exact h.2 e hme
  · cases hcur : (col.foldl (processLine pn ci (estimateColumn col).1
        (estimateColumn col).2 none) ⟨none, []⟩).current with
    | none => rw [hcur] at hme; simp at hme
    | some e0 =>
      rw [hcur] at hme
      simp only [Option.toList, List.mem_singleton] at hme
      subst hme
      exact h.1 _ hcur

lemma postEntry_word (e : Entry) : (postEntry e).word = normalize e.word := rfl

/-- Every entry the extractor emits has a nonempty, whitespace-free word. -/
lemma extractPageEntries_good {page : Page} {pn : Int} :
    ∀ e ∈ extractPageEntries page pn, GoodW e.word := by
  intro e hme
  unfold extractPageEntries at hme
  dsimp only at hme
  rw [List.mem_map] at hme
  obtain ⟨e0, he0, rfl⟩ := hme
  rw [List.mem_flatMap] at he0
  obtain ⟨ic, _, hic⟩ := he0
  rw [postEntry_word]
  exact GoodW_normalize (processColumn_good _ e0 hic)

/-- Claim C1, amended: every Entry in the output of page extraction has a
non-empty word (the sense list, by contrast, may be empty, as
`c1_counterexample` shows). -/
theorem c1_entry_words_nonempty (page : Page) (pn : Int) (i : Nat)
    (h : i < (extractPageEntries page pn).length) :
    ((extractPageEntries page pn).get ⟨i, h⟩).word ≠ [] :=
  (extractPageEntries_good _ (List.get_mem _ _ _)).1

/-- Witness for `c1_entry_words_nonempty` at the concrete page `c1Page`. -/
theorem c1_entry_words_nonempty_witness :
    ((extractPageEntries c1Page 1).get ⟨0, by decide⟩).word ≠ [] :=
  c1_entry_words_nonempty c1Page 1 0 (by decide)

/-- Claim C3, amended: a rule-2 entry's word is the normalized leading
headword token of the line (the headline word group, i.e. the text
preceding the matched rest-of-line), and carries no leading or trailing
whitespace. When an alias parenthetical separates the headword from the POS
token, the alias is not part of the stored word (`c3_counterexample`). -/
theorem c3_rule2_word (t : Str) (p : Int) (c : Nat) (bb : Box) (e : Entry)
    (h : rule2Create t p c bb = some e) :
    e.word = normalize (headlineWordOf t) ∧ pyStrip e.word = e.word := by
  unfold rule2Create at h
  cases hm : headlineMatch t with
  | none => rw [hm] at h; exact absurd h (by simp)
  | some wr =>
    obtain ⟨w, r⟩ := wr
    rw [hm] at h
    dsimp only at h
    split at h
    · exact absurd h (by simp)
    · cases hpm : posMatch (parenStripWhile (normalize r)) with
      | none => rw [hpm] at h; exact absurd h (by simp)
      | some len =>
        rw [hpm] at h
        dsimp only at h
        have he := Option.some.inj h
        have hword : e.word = normalize w := by
          split at he <;> (rw [← he]; rfl)
        rw [hword]
        unfold headlineWordOf
        rw [hm]
        exact ⟨rfl, pyStrip_normalize w⟩

/-- Witness for `c3_rule2_word` at the line `worda m.dh bbb.`. -/
theorem c3_rule2_word_witness :
    c3wEntry.word = normalize (headlineWordOf "worda m.dh bbb.".data) ∧
      pyStrip c3wEntry.word = c3wEntry.word :=
  c3_rule2_word "worda m.dh bbb.".data 1 0 ⟨50, 100, 200, 110⟩ c3wEntry (by decide)

/-- Claim C4, amended: an entry created by the rule-3 promotion is exactly
the rule-2 entry for the same line with its `pos` field erased (the matched
POS token is consumed but never stored), and an entry created at a rule-5
inline break likewise keeps the default empty `pos`. -/
theorem c4_promotion_drops_pos (t : Str) (p : Int) (c : Nat) (bb : Box)
    (hw r : Str) :
    promoteCreate t p c bb =
        (rule2Create t p c bb).map (fun e => { e with pos := [] }) ∧
      (inlineCreate hw r p c bb).pos = [] := by
  constructor
  · unfold promoteCreate rule2Create
    cases hm : headlineMatch t with
    | none => rfl
    | some wr =>
      obtain ⟨w, rest⟩ := wr
      dsimp only
      by_cases hra : normalize rest = []
      · rw [hra, if_pos rfl, parenStripWhile_nil]
        rfl
      · rw [if_neg hra]
        cases hpm : posMatch (parenStripWhile (normalize rest)) with
        | none => rfl
        | some len =>
          dsimp only
          have hsl : pyStrip ((parenStripWhile (normalize rest)).drop len) =
              pyLstrip ((parenStripWhile (normalize rest)).drop len) :=
            strip_eq_lstrip
              (drop_noTrail (parenStripWhile_noTrail (noTrail_normalize rest)) len)
          rw [hsl]
          split <;> rfl
  · unfold inlineCreate
    dsimp only
    split <;> rfl

/-- Claim C3, counterexample: for the rule-2 line
`worda (xalias) m.dh bbb.` the classifier stores the word `worda`, while the
normalized text preceding the matched POS token is `worda (xalias)` — the
alias parenthetical lies between the extracted headword and the POS token,
so the claimed equality fails. -/
theorem c3_counterexample :
    (extractPageEntries c3Page 1).map Entry.word = ["worda".data, "wordb".data] ∧
      specWordBeforePos c3Line = "worda (xalias)".data ∧
      "worda".data ≠ specWordBeforePos c3Line := by
  refine ⟨by decide, by decide, by decide⟩

/-! # Lemmas: transferring `Q` facts to `ℚ` -/

namespace Q

lemma den_cast_pos (a : Q) : (0 : ℚ) < (a.den : ℚ) := by
  have : 0 < a.den := Nat.succ_pos _
  exact_mod_cast this

lemma den_ne_zero (a : Q) : (a.den : ℚ) ≠ 0 := ne_of_gt (den_cast_pos a)

lemma den_nz (a : Q) : a.den ≠ 0 := Nat.succ_ne_zero _

lemma qle_of_not_qle {a b : Q} (h : ¬ a ≤ b) : b ≤ a := by
  have h2 : ¬ (a.num * (b.den : Int) ≤ b.num * (a.den : Int)) := h
  show Q.le b a
  exact le_of_not_le h2

lemma le_iff {a b : Q} : a ≤ b ↔ toRat a ≤ toRat b := by
  show Q.le a b ↔ _
  unfold Q.le toRat
  rw [div_le_div_iff₀ (den_cast_pos a) (den_cast_pos b)]
  constructor
  · intro h; exact_mod_cast h
  · intro h; exact_mod_cast h

lemma lt_iff {a b : Q} : a < b ↔ toRat a < toRat b := by
  show Q.lt a b ↔ _
  unfold Q.lt toRat
  rw [div_lt_div_iff₀ (den_cast_pos a) (den_cast_pos b)]
  constructor
  · intro h; exact_mod_cast h
  · intro h; exact_mod_cast h

lemma toRat_mkNorm (n : Int) (d : Nat) (hd : d ≠ 0) :
    toRat (mkNorm n d) = (n : ℚ) / (d : ℚ) := by
  unfold mkNorm
  split
  · subst n
    simp [toRat, den]
  · next hn =>
    set g : Nat := n.natAbs.gcd d with hg
    have hgn : (g : Int) ∣ n := by
      rw [← Int.natAbs_dvd_natAbs, Int.natAbs_ofNat]
      exact Nat.gcd_dvd_left _ _
    have hgd : g ∣ d := Nat.gcd_dvd_right _ _
    have hg0 : g ≠ 0 := by
      intro h0
      exact hd (Nat.eq_zero_of_gcd_eq_zero_right (hg ▸ h0))
    obtain ⟨k, hk⟩ := hgn
    obtain ⟨m, hm⟩ := hgd
    have hm1 : 1 ≤ d / g := Nat.one_le_div_iff (Nat.pos_of_ne_zero hg0) |>.mpr
      (Nat.le_of_dvd (Nat.pos_of_ne_zero hd) ⟨m, hm⟩)
    have hnum : n / (g : Int) = k := by
      rw [hk]
      exact Int.mul_ediv_cancel_left k (by exact_mod_cast hg0)
    have hden : d / g = m := by
      rw [hm]
      exact Nat.mul_div_cancel_left m (Nat.pos_of_ne_zero hg0)
    unfold toRat den
    dsimp only
    rw [hnum, hden, Nat.sub_add_cancel (hden ▸ hm1), hk, hm]
    have hgq : (g : ℚ) ≠ 0 := by exact_mod_cast hg0
    push_cast
    rw [mul_div_mul_left _ _ hgq]

lemma toRat_add (a b : Q) : toRat (a + b) = toRat a + toRat b := by
  show toRat (Q.add a b) = _
  unfold Q.add
  rw [toRat_mkNorm _ _ (Nat.mul_ne_zero (den_nz a) (den_nz b))]
  unfold toRat
  rw [div_add_div _ _ (den_ne_zero a) (den_ne_zero b)]
  push_cast
  ring

lemma toRat_sub (a b : Q) : toRat (a - b) = toRat a - toRat b := by
  show toRat (Q.sub a b) = _
  unfold Q.sub
  rw [toRat_mkNorm _ _ (Nat.mul_ne_zero (den_nz a) (den_nz b))]
  unfold toRat
  rw [div_sub_div _ _ (den_ne_zero a) (den_ne_zero b)]
  push_cast
  ring

lemma toRat_mul (a b : Q) : toRat (a * b) = toRat a * toRat b := by
  show toRat (Q.mul a b) = _
  unfold Q.mul
  rw [toRat_mkNorm _ _ (Nat.mul_ne_zero (den_nz a) (den_nz b))]
  unfold toRat
  rw [div_mul_div_comm]
  push_cast
  ring

lemma toRat_div (a b : Q) : toRat (a / b) = toRat a / toRat b := by
  show toRat (Q.div a b) = _
  unfold Q.div
  split
  · next hb0 =>
    have : toRat b = 0 := by unfold toRat; rw [hb0]; simp
    rw [this, div_zero]
    simp [toRat, den]
  · next hb0 =>
    have hna : b.num.natAbs ≠ 0 := fun h => hb0 (Int.natAbs_eq_zero.mp h)
    have hb2 : (b.num : ℚ) ≠ 0 := by exact_mod_cast hb0
    rw [toRat_mkNorm _ _ (Nat.mul_ne_zero (den_nz a) hna)]
    unfold toRat
    have habs : ((b.num.natAbs : Nat) : ℚ) = |(b.num : ℚ)| := by
      rw [Int.cast_natAbs, Int.cast_abs]
    rcases le_or_lt 0 b.num with hbn | hbn
    · rw [if_pos hbn]
      push_cast [habs]
      rw [abs_of_nonneg (by exact_mod_cast hbn : (0 : ℚ) ≤ (b.num : ℚ))]
      rw [div_div_div_comm]
      rw [div_div_eq_mul_div, div_mul_eq_mul_div, mul_comm ((a.den : ℚ)) ((b.num : ℚ))]
      rw [div_div]
    · rw [if_neg (not_le.mpr hbn)]
      push_cast [habs]
      rw [abs_of_neg (by exact_mod_cast hbn : ((b.num : ℚ)) < 0)]
      rw [neg_mul, mul_neg, neg_div_neg_eq]
      rw [div_div_div_comm]
      rw [div_div_eq_mul_div, div_mul_eq_mul_div, mul_comm ((a.den : ℚ)) ((b.num : ℚ))]
      rw [div_div]

lemma toRat_ofNat (n : Nat) : toRat (OfNat.ofNat n : Q) = (n : ℚ) := by
  show toRat ⟨n, 0⟩ = _
  unfold toRat den
  simp

lemma toRat_zero : toRat (0 : Q) = 0 := by simpa using toRat_ofNat 0

lemma toRat_one : toRat (1 : Q) = 1 := by simpa using toRat_ofNat 1

lemma toRat_ofInt (i : Int) : toRat (ofInt i) = (i : ℚ) := by
  unfold ofInt toRat den
  simp

lemma toRat_min (a b : Q) : toRat (min a b) = min (toRat a) (toRat b) := by
  show toRat (if a ≤ b then a else b) = _
  split
  · next h => rw [min_eq_left (le_iff.mp h)]
  · next h => rw [min_eq_right (le_iff.mp (qle_of_not_qle h))]

lemma toRat_max (a b : Q) : toRat (max a b) = max (toRat a) (toRat b) := by
  show toRat (if a ≤ b then b else a) = _
  split
  · next h => rw [max_eq_right (le_iff.mp h)]
  · next h => rw [max_eq_left (le_iff.mp (qle_of_not_qle h))]

lemma num_neg_iff {a : Q} : a.num < 0 ↔ toRat a < 0 := by
  unfold toRat
  rw [div_neg_iff]
  constructor
  · intro h
    exact Or.inr ⟨by exact_mod_cast h, den_cast_pos a⟩
  · rintro (⟨_, hd⟩ | ⟨hn, _⟩)
    · exact absurd (den_cast_pos a) (not_lt.mpr (le_of_lt hd))
    · exact_mod_cast hn

lemma toRat_qAbs (a : Q) : toRat (qAbs a) = |toRat a| := by
  unfold qAbs
  split
  · next h =>
    have hneg : toRat a < 0 := num_neg_iff.mp h
    rw [abs_of_neg hneg]
    unfold toRat den
    dsimp only
    push_cast
    ring
  · next h =>
    have hge : 0 ≤ toRat a := by
      by_contra hlt
      exact h (num_neg_iff.mpr (lt_of_not_le hlt))
    rw [abs_of_nonneg hge]

end Q

lemma qSum_toRat (l : List Q) : Q.toRat (qSum l) = (l.map Q.toRat).sum := by
  induction l with
  | nil => simpa using Q.toRat_zero
  | cons a t ih =>
    show Q.toRat (a + qSum t) = _
    rw [Q.toRat_add, ih]
    simp

/-! # Lemmas: the `Q` order and stable sorting -/

namespace Q

lemma qle_refl (a : Q) : a ≤ a := le_iff.mpr le_rfl

lemma qle_trans {a b c : Q} (h1 : a ≤ b) (h2 : b ≤ c) : a ≤ c :=
  le_iff.mpr (le_trans (le_iff.mp h1) (le_iff.mp h2))

lemma qle_of_not_qlt {a b : Q} (h : ¬ a < b) : b ≤ a :=
  le_iff.mpr (not_lt.mp (fun hc => h (lt_iff.mpr hc)))

lemma qlt_of_qle_of_qlt {a b c : Q} (h1 : a ≤ b) (h2 : b < c) : a < c :=
  lt_iff.mpr (lt_of_le_of_lt (le_iff.mp h1) (lt_iff.mp h2))

lemma qmin_eq_left {a b : Q} (h : a ≤ b) : min a b = a := by
  show (if a ≤ b then a else b) = a
  rw [if_pos h]

lemma qle_max_left (a b : Q) : a ≤ max a b := by
  show a ≤ (if a ≤ b then b else a)
  split
  · next h => exact h
  · exact qle_refl a

lemma qmin_le_left (a b : Q) : min a b ≤ a := by
  show (if a ≤ b then a else b) ≤ a
  split
  · exact qle_refl a
  · next h => exact qle_of_not_qle h

lemma toRat_natCast (n : Nat) : toRat (n : Q) = (n : ℚ) := by
  show toRat ⟨n, 0⟩ = _
  unfold toRat den
  simp

end Q

lemma mem_insSorted {f : α → Q} {x a : α} :
    ∀ {l : List α}, a ∈ insSorted f x l ↔ a = x ∨ a ∈ l := by
  intro l
  induction l with
  | nil => simp [insSorted]
  | cons y ys ih =>
    unfold insSorted
    split
    · simp [or_comm, or_left_comm, or_assoc]
    · simp only [List.mem_cons, ih]
      tauto

lemma mem_pySortBy {f : α → Q} {a : α} :
    ∀ {l : List α}, a ∈ pySortBy f l ↔ a ∈ l := by
  intro l
  induction l with
  | nil => simp [pySortBy]
  | cons y ys ih =>
    unfold pySortBy
    rw [mem_insSorted]
    simp [ih]

lemma length_insSorted (f : α → Q) (x : α) :
    ∀ (l : List α), (insSorted f x l).length = l.length + 1 := by
  intro l
  induction l with
  | nil => rfl
  | cons y ys ih =>
    unfold insSorted
    split
    · simp
    · simpa using ih

lemma length_pySortBy (f : α → Q) :
    ∀ (l : List α), (pySortBy f l).length = l.length := by
  intro l
  induction l with
  | nil => rfl
  | cons y ys ih =>
    unfold pySortBy
    rw [length_insSorted]
    simpa using ih

lemma chain'_insSorted {f : α → Q} (x : α) :
    ∀ {l : List α}, List.Chain' (fun a b => f a ≤ f b) l →
      List.Chain' (fun a b => f a ≤ f b) (insSorted f x l) := by
  intro l
  induction l with
  | nil => intro _; simp [insSorted]
  | cons y ys ih =>
    intro hch
    unfold insSorted
    split
    · next h => exact hch.cons h
    · next h =>
      have hyx : f y ≤ f x := Q.qle_of_not_qle h
      have htail := ih hch.tail
      rw [List.chain'_cons']
      refine ⟨?_, htail⟩
      intro z hz
      cases ys with
      | nil =>
        simp [insSorted] at hz
        rw [← hz]; exact hyx
      | cons w ws =>
        rw [show insSorted f x (w :: ws) =
            if f x ≤ f w then x :: w :: ws else w :: insSorted f x ws from rfl] at hz
        split at hz
        · simp at hz
          rw [← hz]; exact hyx
        · simp at hz
          rw [← hz]
          exact (List.chain'_cons.mp hch).1

lemma pySortBy_sorted (f : α → Q) :
    ∀ (l : List α), List.Chain' (fun a b => f a ≤ f b) (pySortBy f l) := by
  intro l
  induction l with
  | nil => simp [pySortBy]
  | cons y ys ih => exact chain'_insSorted y ih

lemma pySortBy_id_of_sorted {f : α → Q} :
    ∀ {l : List α}, List.Chain' (fun a b => f a ≤ f b) l → pySortBy f l = l := by
  intro l
  induction l with
  | nil => intro _; rfl
  | cons y ys ih =>
    intro hch
    unfold pySortBy
    rw [ih hch.tail]
    cases ys with
    | nil => rfl
    | cons w ws =>
      show (if f y ≤ f w then y :: w :: ws else _) = _
      rw [if_pos (List.chain'_cons.mp hch).1]

/-! # Lemmas: column clustering and merging -/

lemma clusterGo_head (g : Q) :
    ∀ (rest : List Band) (cur : Band), (∀ p ∈ rest, cur.1 ≤ p.1) →
      ∃ c2 t, clusterGo g cur rest = (cur.1, c2) :: t := by
  intro rest
  induction rest with
  | nil =>
    intro cur _
    exact ⟨cur.2, [], by simp [clusterGo]⟩
  | cons b rest ih =>
    intro cur hp
    obtain ⟨x0, x1⟩ := b
    rw [clusterGo]
    split
    · exact ⟨cur.2, clusterGo g (x0, x1) rest, by simp⟩
    · have hmin : min cur.1 x0 = cur.1 :=
        Q.qmin_eq_left (hp (x0, x1) (List.mem_cons_self _ _))
      have hp2 : ∀ p ∈ rest, ((min cur.1 x0, max cur.2 x1) : Band).1 ≤ p.1 := by
        intro p hpmem
        rw [hmin]
        exact hp p (List.mem_cons_of_mem _ hpmem)
      obtain ⟨c2, t, ht⟩ := ih _ hp2
      rw [ht, hmin]
      exact ⟨c2, t, rfl⟩

lemma clusterGo_gap (g : Q) :
    ∀ (rest : List Band) (cur : Band), (∀ p ∈ rest, cur.1 ≤ p.1) →
      List.Pairwise (fun a b : Band => a.1 ≤ b.1) rest →
      List.Chain' (fun b b' : Band => g < b'.1 - b.2) (clusterGo g cur rest) := by
  intro rest
  induction rest with
  | nil => intro cur _ _; simp [clusterGo]
  | cons b rest ih =>
    intro cur hp hpw
    obtain ⟨x0, x1⟩ := b
    obtain ⟨hhead, htail⟩ := List.pairwise_cons.mp hpw
    rw [clusterGo]
    split
    · next hcond =>
      have hrec := ih (x0, x1) hhead htail
      obtain ⟨c2, t, ht⟩ := clusterGo_head g rest (x0, x1) hhead
      rw [List.chain'_cons']
      refine ⟨?_, hrec⟩
      intro z hz
      rw [ht] at hz
      simp only [List.head?_cons, Option.mem_def, Option.some.injEq] at hz
      rw [← hz]
      exact hcond
    · have hmin : min cur.1 x0 = cur.1 :=
        Q.qmin_eq_left (hp (x0, x1) (List.mem_cons_self _ _))
      refine ih (min cur.1 x0, max cur.2 x1) ?_ htail
      intro p hpmem
      show min cur.1 x0 ≤ p.1
      rw [hmin]
      exact hp p (List.mem_cons_of_mem _ hpmem)

lemma clusterGo_fst (g : Q) :
    ∀ (rest : List Band) (cur : Band), (∀ p ∈ rest, cur.1 ≤ p.1) →
      List.Pairwise (fun a b : Band => a.1 ≤ b.1) rest →
      List.Chain' (fun a b : Band => a.1 ≤ b.1) (clusterGo g cur rest) := by
  intro rest
  induction rest with
  | nil => intro cur _ _; simp [clusterGo]
  | cons b rest ih =>
    intro cur hp hpw
    obtain ⟨x0, x1⟩ := b
    obtain ⟨hhead, htail⟩ := List.pairwise_cons.mp hpw
    rw [clusterGo]
    split
    · have hrec := ih (x0, x1) hhead htail
      obtain ⟨c2, t, ht⟩ := clusterGo_head g rest (x0, x1) hhead
      rw [List.chain'_cons']
      refine ⟨?_, hrec⟩
      intro z hz
      rw [ht] at hz
      simp only [List.head?_cons, Option.mem_def, Option.some.injEq] at hz
      rw [← hz]
      exact hp (x0, x1) (List.mem_cons_self _ _)
    · have hmin : min cur.1 x0 = cur.1 :=
        Q.qmin_eq_left (hp (x0, x1) (List.mem_cons_self _ _))
      refine ih (min cur.1 x0, max cur.2 x1) ?_ htail
      intro p hpmem
      show min cur.1 x0 ≤ p.1
      rw [hmin]
      exact hp p (List.mem_cons_of_mem _ hpmem)

lemma clusterGo_wf (g : Q) :
    ∀ (rest : List Band) (cur : Band), cur.1 ≤ cur.2 →
      (∀ p ∈ rest, p.1 ≤ p.2) →
      ∀ b ∈ clusterGo g cur rest, b.1 ≤ b.2 := by
  intro rest
  induction rest with
  | nil =>
    intro cur hcur _ b hb
    simp [clusterGo] at hb
    rw [hb]; exact hcur
  | cons p rest ih =>
    intro cur hcur hrest b hb
    obtain ⟨x0, x1⟩ := p
    rw [clusterGo] at hb
    split at hb
    · rcases List.mem_cons.mp hb with rfl | hb2
      · exact hcur
      · exact ih (x0, x1) (hrest (x0, x1) (List.mem_cons_self _ _))
          (fun q hq => hrest q (List.mem_cons_of_mem _ hq)) b hb2
    · refine ih (min cur.1 x0, max cur.2 x1) ?_
        (fun q hq => hrest q (List.mem_cons_of_mem _ hq)) b hb
      show min cur.1 x0 ≤ max cur.2 x1
      exact Q.qle_trans (Q.qmin_le_left cur.1 x0)
        (Q.qle_trans hcur (Q.qle_max_left cur.2 x1))

lemma mergeGo_head (g : Q) :
    ∀ (l : List Band) (last : Band), (∀ b ∈ l, last.1 ≤ b.1) →
      ∃ c2 t, mergeGo g last l = (last.1, c2) :: t := by
  intro l
  induction l with
  | nil =>
    intro last _
    exact ⟨last.2, [], by simp [mergeGo]⟩
  | cons b l ih =>
    intro last hp
    obtain ⟨b1, b2⟩ := b
    rw [mergeGo]
    split
    · have hmin : min last.1 b1 = last.1 :=
        Q.qmin_eq_left (hp (b1, b2) (List.mem_cons_self _ _))
      have hp2 : ∀ q ∈ l, ((min last.1 b1, max last.2 b2) : Band).1 ≤ q.1 := by
        intro q hq
        rw [hmin]
        exact hp q (List.mem_cons_of_mem _ hq)
      obtain ⟨c2, t, ht⟩ := ih _ hp2
      rw [ht, hmin]
      exact ⟨c2, t, rfl⟩
    · exact ⟨last.2, mergeGo g (b1, b2) l, by simp⟩

lemma mergeGo_gap (g : Q) :
    ∀ (l : List Band) (last : Band), (∀ b ∈ l, last.1 ≤ b.1) →
      List.Pairwise (fun a b : Band => a.1 ≤ b.1) l →
      List.Chain' (fun b b' : Band => 2 * g ≤ b'.1 - b.2) (mergeGo g last l) := by
  intro l
  induction l with
  | nil => intro last _ _; simp [mergeGo]
  | cons b l ih =>
    intro last hp hpw
    obtain ⟨b1, b2⟩ := b
    obtain ⟨hhead, htail⟩ := List.pairwise_cons.mp hpw
    rw [mergeGo]
    split
    · have hmin : min last.1 b1 = last.1 :=
        Q.qmin_eq_left (hp (b1, b2) (List.mem_cons_self _ _))
      refine ih (min last.1 b1, max last.2 b2) ?_ htail
      intro q hq
      show min last.1 b1 ≤ q.1
      rw [hmin]
      exact hp q (List.mem_cons_of_mem _ hq)
    · next hcond =>
      have hrec := ih (b1, b2) hhead htail
      obtain ⟨c2, t, ht⟩ := mergeGo_head g l (b1, b2) hhead
      rw [List.chain'_cons']
      refine ⟨?_, hrec⟩
      intro z hz
      rw [ht] at hz
      simp only [List.head?_cons, Option.mem_def, Option.some.injEq] at hz
      rw [← hz]
      exact Q.qle_of_not_qlt hcond

lemma mergeGo_wf (g : Q) :
    ∀ (l : List Band) (last : Band), last.1 ≤ last.2 →
      (∀ b ∈ l, b.1 ≤ b.2) →
      ∀ b ∈ mergeGo g last l, b.1 ≤ b.2 := by
  intro l
  induction l with
  | nil =>
    intro last hlast _ b hb
    simp [mergeGo] at hb
    rw [hb]; exact hlast
  | cons p l ih =>
    intro last hlast hl b hb
    obtain ⟨b1, b2⟩ := p
    rw [mergeGo] at hb
    split at hb
    · refine ih (min last.1 b1, max last.2 b2) ?_
        (fun q hq => hl q (List.mem_cons_of_mem _ hq)) b hb
      show min last.1 b1 ≤ max last.2 b2
      exact Q.qle_trans (Q.qmin_le_left last.1 b1)
        (Q.qle_trans hlast (Q.qle_max_left last.2 b2))
    · rcases List.mem_cons.mp hb with rfl | hb2
      · exact hlast
      · exact ih (b1, b2) (hl (b1, b2) (List.mem_cons_self _ _))
          (fun q hq => hl q (List.mem_cons_of_mem _ hq)) b hb2

/-- A `Chain'` transported along an implication that may use membership. -/
lemma chain'_imp_mem {R S : Band → Band → Prop} :
    ∀ {l : List Band}, (∀ a ∈ l, ∀ b ∈ l, R a b → S a b) →
      List.Chain' R l → List.Chain' S l := by
  intro l
  induction l with
  | nil => intro _ _; simp
  | cons x xs ih =>
    intro h hch
    cases xs with
    | nil => simp
    | cons y ys =>
      rw [List.chain'_cons] at hch ⊢
      refine ⟨h x (by simp) y (by simp) hch.1, ?_⟩
      exact ih (fun a ha b hb =>
        h a (List.mem_cons_of_mem _ ha) b (List.mem_cons_of_mem _ hb)) hch.2

/-- Bands chained by non-decreasing left edge are pairwise so (the relation
is transitive). -/
lemma chain'_fstLe_pairwise {l : List Band}
    (h : List.Chain' (fun a b : Band => a.1 ≤ b.1) l) :
    List.Pairwise (fun a b : Band => a.1 ≤ b.1) l :=
  (@List.chain'_iff_pairwise Band (fun a b : Band => a.1 ≤ b.1)
    ⟨fun _ _ _ h1 h2 => Q.qle_trans h1 h2⟩ l).mp h

lemma initialClusterBands_fst (words : List Word) (g : Q) :
    List.Chain' (fun a b : Band => a.1 ≤ b.1) (initialClusterBands words g) := by
  unfold initialClusterBands
  cases hs : pySortBy (fun t : Q × Q => t.1) (words.map fun w => (w.x0, w.x1)) with
  | nil => simp
  | cons b rest =>
    have hch := pySortBy_sorted (fun t : Q × Q => t.1) (words.map fun w => (w.x0, w.x1))
    rw [hs] at hch
    have hpw := chain'_fstLe_pairwise hch
    obtain ⟨hhead, htail⟩ := List.pairwise_cons.mp hpw
    exact clusterGo_fst g rest b hhead htail

lemma initialClusterBands_gap (words : List Word) (g : Q) :
    List.Chain' (fun b b' : Band => g < b'.1 - b.2) (initialClusterBands words g) := by
  unfold initialClusterBands
  cases hs : pySortBy (fun t : Q × Q => t.1) (words.map fun w => (w.x0, w.x1)) with
  | nil => simp
  | cons b rest =>
    have hch := pySortBy_sorted (fun t : Q × Q => t.1) (words.map fun w => (w.x0, w.x1))
    rw [hs] at hch
    have hpw := chain'_fstLe_pairwise hch
    obtain ⟨hhead, htail⟩ := List.pairwise_cons.mp hpw
    exact clusterGo_gap g rest b hhead htail

lemma initialClusterBands_wf (words : List Word) (g : Q)
    (hw : ∀ w ∈ words, w.x0 ≤ w.x1) :
    ∀ b ∈ initialClusterBands words g, b.1 ≤ b.2 := by
  have hall : ∀ p ∈ pySortBy (fun t : Q × Q => t.1)
      (words.map fun w => (w.x0, w.x1)), p.1 ≤ p.2 := by
    intro p hp
    rw [mem_pySortBy] at hp
    obtain ⟨w, hwm, hwp⟩ := List.mem_map.mp hp
    rw [← hwp]
    exact hw w hwm
  unfold initialClusterBands
  cases hs : pySortBy (fun t : Q × Q => t.1) (words.map fun w => (w.x0, w.x1)) with
  | nil => simp
  | cons b rest =>
    rw [hs] at hall
    exact clusterGo_wf g rest b (hall b (List.mem_cons_self _ _))
      (fun p hp => hall p (List.mem_cons_of_mem _ hp))

lemma detectColumns_wf (words : List Word) (g : Q)
    (hw : ∀ w ∈ words, w.x0 ≤ w.x1) :
    ∀ b ∈ detectColumns words g, b.1 ≤ b.2 := by
  have hwf := initialClusterBands_wf words g hw
  unfold detectColumns
  dsimp only
  split
  · cases hs : initialClusterBands words g with
    | nil => simp
    | cons b0 bs =>
      rw [hs] at hwf
      exact mergeGo_wf g bs b0 (hwf b0 (List.mem_cons_self _ _))
        (fun p hp => hwf p (List.mem_cons_of_mem _ hp))
  · exact hwf

/-- In the merged case the bands keep a gap of at least `2 * g`. -/
lemma detectColumns_merge_gap (words : List Word) (g : Q)
    (h : 3 < (initialClusterBands words g).length) :
    List.Chain' (fun b b' : Band => 2 * g ≤ b'.1 - b.2) (detectColumns words g) := by
  unfold detectColumns
  dsimp only
  rw [if_pos h]
  cases hs : initialClusterBands words g with
  | nil => simp
  | cons b0 bs =>
    have hch := initialClusterBands_fst words g
    rw [hs] at hch
    have hpw := chain'_fstLe_pairwise hch
    obtain ⟨hhead, htail⟩ := List.pairwise_cons.mp hpw
    exact mergeGo_gap g bs b0 hhead htail

/-- Without the merge the bands keep a gap of more than `g`. -/
lemma detectColumns_nomerge_gap (words : List Word) (g : Q)
    (h : ¬ 3 < (initialClusterBands words g).length) :
    List.Chain' (fun b b' : Band => g < b'.1 - b.2) (detectColumns words g) := by
  unfold detectColumns
  dsimp only
  rw [if_neg h]
  exact initialClusterBands_gap words g

/-- The bands of `detect_columns` are strictly increasing in `x0` and
non-overlapping, for positive `min_gap` and words with `x0 ≤ x1`. -/
lemma detectColumns_chain (words : List Word) (g : Q) (hg : 0 < g)
    (hw : ∀ w ∈ words, w.x0 ≤ w.x1) :
    List.Chain' (fun b b' : Band => b.1 < b'.1 ∧ b.2 ≤ b'.1)
      (detectColumns words g) := by
  have hwf := detectColumns_wf words g hw
  by_cases h3 : 3 < (initialClusterBands words g).length
  · have hgap := detectColumns_merge_gap words g h3
    refine chain'_imp_mem ?_ hgap
    intro b hb b' hb' hr
    have hb2 : Q.toRat b.2 < Q.toRat b'.1 := by
      have := Q.le_iff.mp hr
      rw [Q.toRat_sub, Q.toRat_mul, Q.toRat_ofNat] at this
      push_cast at this
      have hg' := Q.lt_iff.mp hg
      rw [Q.toRat_zero] at hg'
      linarith
    refine ⟨Q.lt_iff.mpr ?_, Q.le_iff.mpr (le_of_lt hb2)⟩
    exact lt_of_le_of_lt (Q.le_iff.mp (hwf b hb)) hb2
  · have hgap := detectColumns_nomerge_gap words g h3
    refine chain'_imp_mem ?_ hgap
    intro b hb b' hb' hr
    have hb2 : Q.toRat b.2 < Q.toRat b'.1 := by
      have := Q.lt_iff.mp hr
      rw [Q.toRat_sub] at this
      have hg' := Q.lt_iff.mp hg
      rw [Q.toRat_zero] at hg'
      linarith
    refine ⟨Q.lt_iff.mpr ?_, Q.le_iff.mpr (le_of_lt hb2)⟩
    exact lt_of_le_of_lt (Q.le_iff.mp (hwf b hb)) hb2

/-- **C9** (amended): when the initial gap clustering yields more than three
bands, the greedy merge only coalesces adjacent bands closer than twice the
minimum gap, so every adjacent gap of the result is at least `2 * min_gap`;
the band count itself is not bounded at three (see the counterexample). -/
theorem c9_merge_gap_bound (words : List Word) (g : Q)
    (h : 3 < (initialClusterBands words g).length) :
    List.Chain' (fun b b' : Band => 2 * g ≤ b'.1 - b.2) (detectColumns words g) :=
  detectColumns_merge_gap words g h

/-- Witness for `c9_merge_gap_bound` at the four-word page. -/
theorem c9_merge_gap_bound_witness :
    3 < (initialClusterBands c9Words 20).length ∧
      List.Chain' (fun b b' : Band => 2 * 20 ≤ b'.1 - b.2)
        (detectColumns c9Words 20) :=
  ⟨by decide, c9_merge_gap_bound c9Words 20 (by decide)⟩

/-! # Lemmas: divider bounds and the page band invariant -/

/-- The cluster mean `qSum l / max 1 |l|` stays inside `[0, w]` when every
element does. -/
lemma mean_bounds {l : List Q} {w : Q} (hw : 0 ≤ w)
    (hb : ∀ x ∈ l, 0 ≤ x ∧ x ≤ w) :
    0 ≤ Q.toRat (qSum l / max 1 (l.length : Q)) ∧
      Q.toRat (qSum l / max 1 (l.length : Q)) ≤ Q.toRat w := by
  rw [Q.toRat_div, qSum_toRat, Q.toRat_max, Q.toRat_natCast, Q.toRat_ofNat]
  have hw' : (0 : ℚ) ≤ Q.toRat w := by
    have := Q.le_iff.mp hw
    rwa [Q.toRat_zero] at this
  have hD : (0 : ℚ) < max ((1 : Nat) : ℚ) ((l.length : Nat) : ℚ) :=
    lt_of_lt_of_le (by norm_num) (le_max_left _ _)
  have hS0 : (0 : ℚ) ≤ (l.map Q.toRat).sum := by
    refine List.sum_nonneg ?_
    intro x hx
    obtain ⟨q, hq, hqx⟩ := List.mem_map.mp hx
    rw [← hqx]
    have := Q.le_iff.mp (hb q hq).1
    rwa [Q.toRat_zero] at this
  have hSle : (l.map Q.toRat).sum ≤ (l.length : ℚ) * Q.toRat w := by
    have h1 := List.sum_le_card_nsmul (l.map Q.toRat) (Q.toRat w) ?_
    · rwa [List.length_map, nsmul_eq_mul] at h1
    · intro x hx
      obtain ⟨q, hq, hqx⟩ := List.mem_map.mp hx
      rw [← hqx]
      exact Q.le_iff.mp (hb q hq).2
  have hnD : ((l.length : Nat) : ℚ) ≤ max ((1 : Nat) : ℚ) ((l.length : Nat) : ℚ) :=
    le_max_right _ _
  constructor
  · exact div_nonneg hS0 (le_of_lt hD)
  · rw [div_le_iff₀ hD]
    nlinarith

/-- The two-cluster-mean fallback divider stays inside `[0, w]` when every
line left edge does. -/
lemma fallbackDivider_bounds {lineXs : List Q} {w d : Q} (hw : 0 ≤ w)
    (hb : ∀ x ∈ lineXs, 0 ≤ x ∧ x ≤ w)
    (hd : fallbackDivider lineXs = some d) :
    0 ≤ Q.toRat d ∧ Q.toRat d ≤ Q.toRat w := by
  unfold fallbackDivider at hd
  cases hs : pySortBy id lineXs with
  | nil => rw [hs] at hd; exact absurd hd (by simp)
  | cons x xs =>
    rw [hs] at hd
    dsimp only at hd
    rw [Option.some.injEq] at hd
    subst hd
    have hmemb : ∀ y ∈ x :: xs, 0 ≤ y ∧ y ≤ w := by
      intro y hy
      rw [← hs, mem_pySortBy] at hy
      exact hb y hy
    have hlow := mean_bounds hw (l := (x :: xs).filter
        fun v => v ≤ (x :: xs).getD ((x :: xs).length / 2) 0)
      (fun y hy => hmemb y (List.mem_of_mem_filter hy))
    have hhigh := mean_bounds hw (l := (x :: xs).filter
        fun v => (x :: xs).getD ((x :: xs).length / 2) 0 < v)
      (fun y hy => hmemb y (List.mem_of_mem_filter hy))
    rw [Q.toRat_div, Q.toRat_add, Q.toRat_ofNat]
    push_cast
    constructor
    · linarith [hlow.1, hhigh.1]
    · linarith [hlow.2, hhigh.2]

/-- Whatever its source — a qualifying drawing or the cluster-mean
fallback — a found divider lies inside `[0, width]`. -/
lemma detectDividerX_bounds {page : Page} {d : Q} (hw : 0 < page.width)
    (hb : ∀ l ∈ collectLines page, 0 ≤ l.box.x0 ∧ l.box.x0 ≤ page.width)
    (hd : detectDividerX page (collectLines page) = some d) :
    0 ≤ Q.toRat d ∧ Q.toRat d ≤ Q.toRat page.width := by
  have hw' : (0 : ℚ) < Q.toRat page.width := by
    have := Q.lt_iff.mp hw
    rwa [Q.toRat_zero] at this
  unfold detectDividerX at hd
  cases hf : (((page.drawings.map Drawing.items).flatten).find?
      (dividerQualifies page.width page.height)) with
  | some it =>
    rw [hf] at hd
    dsimp only at hd
    rw [Option.some.injEq] at hd
    subst hd
    have hq := List.find?_some hf
    unfold dividerQualifies at hq
    simp only [Bool.and_eq_true, decide_eq_true_eq] at hq
    have h1 := Q.lt_iff.mp hq.1.2
    have h2 := Q.lt_iff.mp hq.2
    rw [Q.toRat_mul, Q.toRat_div, Q.toRat_ofNat, Q.toRat_ofNat] at h1
    rw [Q.toRat_mul, Q.toRat_div, Q.toRat_ofNat, Q.toRat_ofNat] at h2
    push_cast at h1 h2
    constructor
    · nlinarith
    · nlinarith
  | none =>
    rw [hf] at hd
    refine fallbackDivider_bounds (Q.le_iff.mpr (le_of_lt (Q.lt_iff.mp hw))) ?_ hd
    intro x hx
    obtain ⟨l, hl, hlx⟩ := List.mem_map.mp hx
    rw [← hlx]
    exact hb l hl

/-- **C6**: for every page with well-formed geometry (positive width, kept
line left edges inside the page, span boxes with `x0 ≤ x1`), the column band
list handed to the classifier is sorted by strictly ascending `x0` and the
bands are mutually non-overlapping (`band[i].x1 ≤ band[i+1].x0`). -/
theorem c6_bands_sorted_disjoint (page : Page)
    (hw : 0 < page.width)
    (hx : ∀ l ∈ collectLines page, 0 ≤ l.box.x0 ∧ l.box.x0 ≤ page.width)
    (hwords : ∀ w ∈ collectWords page, w.x0 ≤ w.x1) :
    List.Chain' (fun b b' : Band => b.1 < b'.1 ∧ b.2 ≤ b'.1)
      (pageColBands page) := by
  have hw' : (0 : ℚ) < Q.toRat page.width := by
    have := Q.lt_iff.mp hw
    rwa [Q.toRat_zero] at this
  unfold pageColBands
  dsimp only
  cases hdet : detectDividerX page (collectLines page) with
  | some d =>
    obtain ⟨hd0, hdw⟩ := detectDividerX_bounds hw hx hdet
    have hd1 : Q.toRat (min page.width (d + 1)) =
        min (Q.toRat page.width) (Q.toRat d + 1) := by
      simp [Q.toRat_min, Q.toRat_add, Q.toRat_one]
    have hd2 : Q.toRat (max 0 (d - 1)) = max 0 (Q.toRat d - 1) := by
      simp [Q.toRat_max, Q.toRat_sub, Q.toRat_one, Q.toRat_zero]
    have hsorted : List.Chain' (fun a b : Band => a.1 ≤ b.1)
        [((0 : Q), max 0 (d - 1)), (min page.width (d + 1), page.width)] := by
      rw [List.chain'_pair]
      show (0 : Q) ≤ min page.width (d + 1)
      rw [Q.le_iff, Q.toRat_zero, hd1]
      exact le_min (le_of_lt hw') (by linarith)
    rw [pySortBy_id_of_sorted hsorted, List.chain'_pair]
    constructor
    · show (0 : Q) < min page.width (d + 1)
      rw [Q.lt_iff, Q.toRat_zero, hd1]
      exact lt_min hw' (by linarith)
    · show max 0 (d - 1) ≤ min page.width (d + 1)
      rw [Q.le_iff, hd2, hd1, max_le_iff, le_min_iff, le_min_iff]
      exact ⟨⟨le_of_lt hw', by linarith⟩, by linarith, by linarith⟩
  | none =>
    by_cases hcb : detectColumns (collectWords page) 20 = []
    · rw [if_pos hcb]
      simp [pySortBy, insSorted]
    · rw [if_neg hcb]
      have hchain := detectColumns_chain (collectWords page) 20 (by decide) hwords
      have hsorted : List.Chain' (fun a b : Band => a.1 ≤ b.1)
          (detectColumns (collectWords page) 20) :=
        hchain.imp fun a b hab => Q.le_iff.mpr (le_of_lt (Q.lt_iff.mp hab.1))
      rw [pySortBy_id_of_sorted hsorted]
      exact hchain

/-- Witness for `c6_bands_sorted_disjoint` at the two-column divider page. -/
theorem c6_bands_sorted_disjoint_witness :
    ((0 : Q) < c5Page.width ∧
      (∀ l ∈ collectLines c5Page, 0 ≤ l.box.x0 ∧ l.box.x0 ≤ c5Page.width) ∧
      (∀ w ∈ collectWords c5Page, w.x0 ≤ w.x1)) ∧
      List.Chain' (fun b b' : Band => b.1 < b'.1 ∧ b.2 ≤ b'.1)
        (pageColBands c5Page) :=
  ⟨⟨by decide, by decide, by decide⟩,
    c6_bands_sorted_disjoint c5Page (by decide) (by decide) (by decide)⟩

/-- `fallbackDivider` returns a value on every non-empty left-edge list. -/
lemma fallbackDivider_isSome {l : List Q} (h : l ≠ []) :
    ∃ d, fallbackDivider l = some d := by
  unfold fallbackDivider
  cases hs : pySortBy id l with
  | nil =>
    exfalso
    have hlen := length_pySortBy id l
    rw [hs] at hlen
    simp only [List.length_nil] at hlen
    exact h (List.length_eq_zero.mp hlen.symm)
  | cons x xs => exact ⟨_, rfl⟩

/-- **C8** (amended): when no drawing primitive qualifies as a divider but
the page keeps at least one line, `detect_divider_x` does not fall back to
gap clustering — it returns the midpoint of the means of the two left-edge
clusters split at the median, and the page is split into the two bands
around that divider. -/
theorem c8_fallback_divider (page : Page)
    (hnone : (((page.drawings.map Drawing.items).flatten).find?
      (dividerQualifies page.width page.height)) = none)
    (hlines : collectLines page ≠ []) :
    ∃ d, fallbackDivider ((collectLines page).map fun ld => ld.box.x0) = some d ∧
      detectDividerX page (collectLines page) = some d ∧
      pageColBands page = pySortBy (fun b => b.1)
        [((0 : Q), max 0 (d - 1)), (min page.width (d + 1), page.width)] := by
  have hmap : (collectLines page).map (fun ld => ld.box.x0) ≠ [] := by
    simpa using hlines
  obtain ⟨d, hd⟩ := fallbackDivider_isSome hmap
  have hdet : detectDividerX page (collectLines page) = some d := by
    unfold detectDividerX
    rw [hnone]
    exact hd
  refine ⟨d, hd, hdet, ?_⟩
  unfold pageColBands
  dsimp only
  rw [hdet]

/-- Witness for `c8_fallback_divider` at a drawing-free two-line page. -/
theorem c8_fallback_divider_witness :
    ((((c8Page.drawings.map Drawing.items).flatten).find?
        (dividerQualifies c8Page.width c8Page.height)) = none ∧
      collectLines c8Page ≠ []) ∧
      ∃ d, fallbackDivider ((collectLines c8Page).map fun ld => ld.box.x0) = some d ∧
        detectDividerX c8Page (collectLines c8Page) = some d ∧
        pageColBands c8Page = pySortBy (fun b => b.1)
          [((0 : Q), max 0 (d - 1)), (min c8Page.width (d + 1), c8Page.width)] :=
  ⟨⟨by decide, by decide⟩, c8_fallback_divider c8Page (by decide) (by decide)⟩

/-- `lexLe` is reflexive. -/
lemma lexLe_refl (a : Entry) : lexLe a a :=
  Or.inr ⟨rfl, Or.inr ⟨rfl, Q.qle_refl a.box.y0⟩⟩

/-- The per-token resolver satisfies the spec-modelled target description
whenever the batch is listed in (page, column, line) order. -/
lemma resolveToken_spec (entries : List Entry) (token : Str)
    (hsorted : List.Pairwise lexLe entries) :
    specResolvedTarget entries token (resolveToken entries token) := by
  unfold resolveToken specResolvedTarget
  dsimp only
  cases hex : entries.filter (fun e => normalize e.word = normalize token) with
  | nil =>
    cases hbase : entries.filter
        (fun e => stripSup (normalize e.word) = stripSup (normalize token)) with
    | nil => rfl
    | cons e rest =>
      refine ⟨rfl, ?_⟩
      have hpw : List.Pairwise lexLe (e :: rest) := by
        rw [← hbase]
        exact hsorted.filter _
      intro e' he'
      rcases List.mem_cons.mp he' with rfl | hmem
      · exact lexLe_refl e'
      · exact (List.pairwise_cons.mp hpw).1 e' hmem
  | cons e0 rest0 =>
    cases rest0 with
    | nil => rfl
    | cons e1 rest1 =>
      cases hbase : entries.filter
          (fun e => stripSup (normalize e.word) = stripSup (normalize token)) with
      | nil => rfl
      | cons e rest =>
        refine ⟨rfl, ?_⟩
        have hpw : List.Pairwise lexLe (e :: rest) := by
          rw [← hbase]
          exact hsorted.filter _
        intro e' he'
        rcases List.mem_cons.mp he' with rfl | hmem
        · exact lexLe_refl e'
        · exact (List.pairwise_cons.mp hpw).1 e' hmem

/-- **C2**: against a batch listed in (page, column, line) order — as
`parse_pages` builds it — the resolver maps each raw token to the target the
spec describes (unique exact match; else earliest superscript-stripped
match; else the normalized token itself), and the resolved list matches the
raw token list in length and position. -/
theorem c2_resolver_spec (entries : List Entry) (items : List Str)
    (hsorted : List.Pairwise lexLe entries) :
    (resolveList entries items).length = items.length ∧
      List.Forall₂ (specResolvedTarget entries) items
        (resolveList entries items) := by
  refine ⟨by simp [resolveList], ?_⟩
  unfold resolveList
  induction items with
  | nil => exact List.Forall₂.nil
  | cons t ts ih => exact List.Forall₂.cons (resolveToken_spec entries t hsorted) ih

/-- Witness for `c2_resolver_spec` at a three-entry batch and three tokens
covering all three resolver outcomes. -/
theorem c2_resolver_spec_witness :
    List.Pairwise lexLe c2Batch ∧
      ((resolveList c2Batch c2Tokens).length = c2Tokens.length ∧
        List.Forall₂ (specResolvedTarget c2Batch) c2Tokens
          (resolveList c2Batch c2Tokens)) :=
  ⟨by decide, c2_resolver_spec c2Batch c2Tokens (by decide)⟩

end Qaamuus
